import Mathlib

/-!
Verification of the multi-account OAuth routing plugin
(`opencode-openai-codex-auth`): a shallow embedding in Lean 4 of the
account pool (`src/lib/accounts.ts`), the durable store
(`src/lib/storage.ts`), the SSE response normalizer
(`src/lib/request/response-handler.ts`) and the fetch-orchestrator
helpers (`src/lib/request/fetch-helpers.ts`, `src/index.ts`), together
with proofs and refutations of the specification's claims about them.

Conventions of the embedding:
* `Date.now()` is impure, so every operation that reads the clock takes
  an explicit `now : Int` (milliseconds) argument.
* JavaScript numbers used by this code are integral millisecond
  timestamps and counters, embedded as `Int` (so `Math.floor` on them is
  the identity and `Math.max 0` is `max 0`).
* In-place mutation of an account object that is aliased by the pool's
  array is embedded as a functional update of the list at the account's
  position.
* `JSON.parse` is a runtime builtin (an external collaborator), so the
  stream parser is parameterized by an arbitrary parse function
  `jp : String → Except String Json`; `Except.error` models a thrown
  `SyntaxError`, and every `try { ... } catch { ... }` of the source is
  embedded as a `match` on that result.
-/

/-- JSON values, as produced by `JSON.parse`. Arrays and objects are
encoded as right-nested chains (`arrCons`/`objCons`) instead of nested
`List` fields so that decidable equality is derivable; a parsed object
`\x7b"a": 1, "b": 2\x7d` is `objCons "a" (num 1) (objCons "b" (num 2) objNil)`. -/
inductive Json where
  | null
  | bool (b : Bool)
  | num (n : Int)
  | str (s : String)
  | arrNil
  | arrCons (head tail : Json)
  | objNil
  | objCons (key : String) (value tail : Json)
deriving DecidableEq

/-- Field lookup on a parsed object: `j[key]`, or `none` when `j` is not
an object or lacks the key (JavaScript `undefined`). `JSON.parse` output
has no duplicate keys, so first match suffices. -/
def Json.getField : Json → String → Option Json
  | .objCons k v t, key => if k = key then some v else t.getField key
  | _, _ => none

/-- The test `parsedAny && typeof parsedAny === "object" && "response" in parsedAny`
from `processEvent`: `null` is falsy, arrays have `typeof "object"` but no
`response` own-property, so the whole test reduces to object-with-field. -/
def Json.hasField (j : Json) (key : String) : Bool :=
  (j.getField key).isSome

/-- JavaScript truthiness test `!v` (falsy): `null`, `false`, `0`, `""`.
Arrays and objects (even empty) are truthy. -/
def jsFalsy : Json → Bool
  | .null => true
  | .bool b => !b
  | .num n => n = 0
  | .str s => s = ""
  | _ => false

/-- Nullish test used by the `??` operator: JavaScript `undefined`
(`none` here) or `null`. -/
def jsNullish : Option Json → Bool
  | none => true
  | some .null => true
  | _ => false

/-- The `a ?? b` operator. -/
def jsCoalesce (a b : Option Json) : Option Json :=
  if jsNullish a then b else a

/-- Whitespace characters matched by the `\s` class of the
`/^data:\s?/` regex that can occur inside one line. -/
def isJsSpace (c : Char) : Bool :=
  c = ' ' || c = '\t' || c = '\r' || c = '\u000b' || c = '\u000c'

/-- Split on `'\n'` over the character list (`String.splitOn` does not
reduce in the kernel). -/
def splitOnNl : List Char → List (List Char)
  | [] => [[]]
  | c :: rest =>
    match splitOnNl rest, c with
    | ls, '\n' => [] :: ls
    | l :: ls, c => (c :: l) :: ls
    | [], c => [[c]]

/-- Strip one `'\r'` from the end of every piece except the last, so
that splitting on `'\n'` then chopping equals the source's
`sseText.split(/\r?\n/)`. -/
def chopCr : List (List Char) → List (List Char)
  | [] => []
  | [x] => [x]
  | x :: xs =>
    (match x.reverse with
     | '\r' :: ys => ys.reverse
     | _ => x) :: chopCr xs

/-- The line split `sseText.split(/\r?\n/)` of `parseSseStream`. -/
def sseLines (sseText : String) : List (List Char) :=
  chopCr (splitOnNl sseText.data)

/-- Test for `line.startsWith("data:")`. -/
def isDataLine : List Char → Bool
  | 'd' :: 'a' :: 't' :: 'a' :: ':' :: _ => true
  | _ => false

/-- Content extraction `line.replace(/^data:\s?/, "")` for a line that
starts with `data:`: drop the tag and at most one whitespace character. -/
def stripDataTag (line : List Char) : List Char :=
  match line with
  | 'd' :: 'a' :: 't' :: 'a' :: ':' :: rest =>
    match rest with
    | c :: cs => if isJsSpace c then cs else rest
    | [] => []
  | other => other

/-- Tracking state of `parseSseStream`: `finalResponse`, `lastEvent`,
`lastResponseLike` (field order follows the returned object). -/
structure SseResult where
  finalResponse : Option Json
  lastEvent : Option Json
  lastResponseLike : Option Json
deriving DecidableEq

/-- The `processEvent` closure of `parseSseStream`: record the event as
`lastEvent`; when it is an object carrying a `response` member record
that as `lastResponseLike` (a parsed member is never `undefined`), and
when its `type` tag is terminal record it as `finalResponse`. -/
def processEvent (st : SseResult) (parsed : Json) : SseResult :=
  let st1 := { st with lastEvent := some parsed }
  match parsed.getField "response" with
  | none => st1
  | some r =>
    let st2 := { st1 with lastResponseLike := some r }
    if parsed.getField "type" = some (.str "response.done")
        || parsed.getField "type" = some (.str "response.completed") then
      { st2 with finalResponse := some r }
    else
      st2

/-- The `tryFlush` closure of `parseSseStream`: parse the accumulated
`data:` payload lines joined by newlines; on success clear the buffer and
process the event; the `try \x7b ... \x7d catch` around the parse is the
`Except.tryCatch`, whose handler reports `false` and keeps the buffer. -/
def tryFlushE (jp : String → Except String Json) (pending : List String)
    (st : SseResult) : Except String (Bool × List String × SseResult) :=
  match pending with
  | [] => pure (false, pending, st)
  | _ =>
    Except.tryCatch
      (do
        let parsed ← jp (String.intercalate "\n" pending)
        pure (true, ([] : List String), processEvent st parsed))
      (fun _ => pure (false, pending, st))

/-- The line loop of `parseSseStream` (`src/lib/request/response-handler.ts`):
an empty line flushes and clears the buffer; a `data:` line is appended
and parsed optimistically, retrying the standalone line (and discarding
accumulated garbage) when the joined buffer fails — that retry's
`try/catch` is again an `Except.tryCatch`, scoped to the parse and
event-processing exactly as in the source; any other line is ignored;
the end of input performs a final flush. -/
def sseLoopE (jp : String → Except String Json) :
    List (List Char) → List String → SseResult → Except String SseResult
  | [], pending, st => do
    let r ← tryFlushE jp pending st
    pure r.2.2
  | line :: rest, pending, st =>
    if line = [] then do
      let r ← tryFlushE jp pending st
      sseLoopE jp rest [] r.2.2
    else if isDataLine line then do
      let content := String.mk (stripDataTag line)
      let r ← tryFlushE jp (pending ++ [content]) st
      if r.1 then
        sseLoopE jp rest r.2.1 r.2.2
      else do
        let s2 ← Except.tryCatch
          (do
            let parsed ← jp content
            pure (([] : List String), processEvent r.2.2 parsed))
          (fun _ => pure (r.2.1, r.2.2))
        sseLoopE jp rest s2.1 s2.2
    else
      sseLoopE jp rest pending st

/-- The whole of `parseSseStream` in the `Except` monad: an uncaught
`JSON.parse` failure would surface as `.error`; that none does is proved
below, not assumed. -/
def parseSseStream (jp : String → Except String Json) (sseText : String) :
    Except String SseResult :=
  sseLoopE jp (sseLines sseText) [] ⟨none, none, none⟩

/-- Body of the converted response: either the raw SSE text passed
through, or a single JSON document (the source serializes it with
`JSON.stringify`; the embedding keeps the value itself). -/
inductive BodyOut where
  | raw (text : String)
  | json (payload : Json)
deriving DecidableEq

/-- Result of `convertSseToJson`: response body and HTTP status. -/
structure ConvertedResponse where
  body : BodyOut
  status : Nat
deriving DecidableEq

/-- The decision core of `convertSseToJson`
(`src/lib/request/response-handler.ts`), applied to the fully consumed
stream text: select `finalResponse ?? lastResponseLike ?? lastEvent`;
when the selection is missing or falsy (`if (!responsePayload)`) re-emit
the raw stream text with the original status, otherwise emit the
selected payload as a JSON body with the original status. -/
def convertSseToJson (jp : String → Except String Json) (fullText : String)
    (status : Nat) : Except String ConvertedResponse := do
  let parsed ← parseSseStream jp fullText
  let payload := jsCoalesce parsed.finalResponse
    (jsCoalesce parsed.lastResponseLike parsed.lastEvent)
  match payload with
  | none => pure ⟨.raw fullText, status⟩
  | some j =>
    if jsFalsy j then pure ⟨.raw fullText, status⟩
    else pure ⟨.json j, status⟩

/-- Finite-table JSON parser used to instantiate the abstract
`JSON.parse` parameter on concrete inputs: strings present in the table
parse to the tabulated value, everything else raises a `SyntaxError`. -/
def jpTable (table : List (String × Json)) : String → Except String Json :=
  fun s =>
    match table.find? (fun p => p.1 = s) with
    | some p => .ok p.2
    | none => .error "SyntaxError"

deriving instance DecidableEq for Except

/-! ## Account pool (`src/lib/accounts.ts`) -/

/-- Cooldown reasons (`src/lib/storage.ts`). -/
inductive CooldownReason where
  | authFailure
  | networkError
deriving DecidableEq

/-- Switch reasons of `ManagedAccount.lastSwitchReason`. -/
inductive SwitchReason where
  | rateLimit
  | initial
  | rotation
deriving DecidableEq

/-- The `ManagedAccount` interface of `src/lib/accounts.ts` (optional
fields are `Option`, timestamps are millisecond `Int`s). -/
structure ManagedAccount where
  index : Nat
  accountId : Option String
  refreshToken : String
  access : Option String
  expires : Option Int
  addedAt : Int
  lastUsed : Int
  lastSwitchReason : Option SwitchReason
  rateLimitResetTime : Option Int
  coolingDownUntil : Option Int
  cooldownReason : Option CooldownReason
deriving DecidableEq

/-- The mutable private state of `AccountManager` used by the selection
and rate-limit operations (the toast-debounce fields, which none of the
modelled operations read, are omitted). `activeIndex` is an `Int`
because `-1` is its empty-pool sentinel. -/
structure AccountManager where
  accounts : List ManagedAccount
  cursor : Nat
  activeIndex : Int
deriving DecidableEq

/-- The `isRateLimited` helper: limited iff a reset time is set and
still in the future. -/
def isRateLimited (now : Int) (a : ManagedAccount) : Bool :=
  match a.rateLimitResetTime with
  | none => false
  | some t => now < t

/-- The `clearExpiredRateLimit` helper: delete the reset time once it
has passed. -/
def clearExpiredRateLimit (now : Int) (a : ManagedAccount) : ManagedAccount :=
  match a.rateLimitResetTime with
  | none => a
  | some t => if t ≤ now then { a with rateLimitResetTime := none } else a

/-- The method `isAccountCoolingDown`, which also lazily clears an
expired cooldown (`clearAccountCooldown`); returns the flag and the
possibly-updated account. -/
def isAccountCoolingDown (now : Int) (a : ManagedAccount) :
    Bool × ManagedAccount :=
  match a.coolingDownUntil with
  | none => (false, a)
  | some t =>
    if t ≤ now then
      (false, { a with coolingDownUntil := none, cooldownReason := none })
    else
      (true, a)

/-- One evaluation of the availability filter predicate of
`getNextAvailable`/`getMinWaitTime` on one account, with its aliased
mutations: `clearExpiredRateLimit(account)`, then
`!isRateLimited(account) && !this.isAccountCoolingDown(account)`
(short-circuit: the cooldown check, and hence its lazy clearing, only
runs when the account is not rate-limited). Returns the updated account
and the predicate value. -/
def availStep (now : Int) (a : ManagedAccount) : ManagedAccount × Bool :=
  let a1 := clearExpiredRateLimit now a
  if isRateLimited now a1 then
    (a1, false)
  else
    let c := isAccountCoolingDown now a1
    (c.2, !c.1)

/-- Availability of an account at an instant: neither rate-limited nor
cooling down (the pure predicate, without the lazy clearing). -/
def isAvailableNow (now : Int) (a : ManagedAccount) : Bool :=
  !(isRateLimited now a) &&
    !(match a.coolingDownUntil with
      | none => false
      | some t => decide (now < t))

/-- Selection of the `k`-th element (0-based) among the flagged entries,
mirroring `available[this.cursor % available.length]` applied to the
filter result. -/
def pickNthAvail : List (ManagedAccount × Bool) → Nat → Option ManagedAccount
  | [], _ => none
  | (a, true) :: _, 0 => some a
  | (_, true) :: rest, k + 1 => pickNthAvail rest k
  | (_, false) :: rest, k => pickNthAvail rest k

/-- Write-back of the `account.lastUsed = nowMs()` mutation performed on
the selected (aliased) element: stamp the `k`-th flagged entry, keep the
rest. -/
def stampNthAvail (now : Int) : List (ManagedAccount × Bool) → Nat →
    List ManagedAccount
  | [], _ => []
  | (a, true) :: rest, 0 => { a with lastUsed := now } :: rest.map Prod.fst
  | (a, true) :: rest, k + 1 => a :: stampNthAvail now rest k
  | (a, false) :: rest, k => a :: stampNthAvail now rest k

/-- The method `getNextAvailable`: filter available accounts (with the
lazy timer clearing mutating the pool), return `null` when none remain,
else take the cursor-indexed element round-robin, advance the cursor and
stamp `lastUsed`. -/
def getNextAvailable (now : Int) (m : AccountManager) :
    Option ManagedAccount × AccountManager :=
  let stepped := m.accounts.map (availStep now)
  let availCount := (stepped.filter (fun p => p.2)).length
  if availCount = 0 then
    (none, { m with accounts := stepped.map Prod.fst })
  else
    let k := m.cursor % availCount
    match pickNthAvail stepped k with
    | none => (none, { m with accounts := stepped.map Prod.fst })
    | some a =>
      (some { a with lastUsed := now },
       { accounts := stampNthAvail now stepped k,
         cursor := m.cursor + 1,
         activeIndex := m.activeIndex })

/-- The method `getCurrentAccount`: the account at `activeIndex` when in
bounds, else `null`. -/
def getCurrentAccount (m : AccountManager) : Option ManagedAccount :=
  if m.activeIndex < 0 ∨ (m.accounts.length : Int) ≤ m.activeIndex then none
  else m.accounts.get? m.activeIndex.toNat

/-- The fallthrough of `getCurrentOrNext`: round-robin selection, moving
`activeIndex` to the selected account's `index` when one is found. -/
def rotateToNext (now : Int) (m : AccountManager) :
    Option ManagedAccount × AccountManager :=
  let r := getNextAvailable now m
  match r.1 with
  | some a => (some a, { r.2 with activeIndex := (a.index : Int) })
  | none => (none, r.2)

/-- The method `getCurrentOrNext`: when the active account exists, clear
its expired rate limit (aliased into the pool) and, if it is neither
rate-limited nor cooling down (the cooldown check lazily clearing an
expired window), stamp `lastUsed` and return it; otherwise fall through
to `getNextAvailable` and move the active pointer to the result. -/
def getCurrentOrNext (now : Int) (m : AccountManager) :
    Option ManagedAccount × AccountManager :=
  if m.activeIndex < 0 ∨ (m.accounts.length : Int) ≤ m.activeIndex then
    rotateToNext now m
  else
    let i := m.activeIndex.toNat
    match m.accounts.get? i with
    | none => rotateToNext now m
    | some current =>
      let cur1 := clearExpiredRateLimit now current
      let m1 := { m with accounts := m.accounts.set i cur1 }
      if isRateLimited now cur1 then
        rotateToNext now m1
      else
        let c := isAccountCoolingDown now cur1
        let m2 := { m with accounts := m.accounts.set i c.2 }
        if c.1 then
          rotateToNext now m2
        else
          let cur3 := { c.2 with lastUsed := now }
          (some cur3, { m with accounts := m.accounts.set i cur3 })

/-- The method `markRateLimited` applied to the account at position
`pos` of the pool: set `rateLimitResetTime = now + max(0, floor(retryAfterMs))`
(`floor` is the identity on integral milliseconds). -/
def markRateLimited (now : Int) (m : AccountManager) (pos : Nat)
    (retryAfterMs : Int) : AccountManager :=
  match m.accounts.get? pos with
  | none => m
  | some a =>
    let a1 := { a with rateLimitResetTime := some (now + max 0 retryAfterMs) }
    { m with accounts := m.accounts.set pos a1 }

/-- The method `markSwitched` applied to the account at position `pos`:
record the switch reason on the account and point `activeIndex` at the
account's `index` field. -/
def markSwitched (m : AccountManager) (pos : Nat) (reason : SwitchReason) :
    AccountManager :=
  match m.accounts.get? pos with
  | none => m
  | some a =>
    let a1 := { a with lastSwitchReason := some reason }
    { m with accounts := m.accounts.set pos a1, activeIndex := (a.index : Int) }

/-- The wait-time list built by `getMinWaitTime`'s loop over the (lazily
cleared) pool: for each account push `max(0, rateLimitResetTime - now)`
and `max(0, coolingDownUntil - now)` for whichever timers are set. -/
def waitTimesOf (now : Int) : List ManagedAccount → List Int
  | [] => []
  | a :: rest =>
    (match a.rateLimitResetTime with
     | some t => [max 0 (t - now)]
     | none => []) ++
    (match a.coolingDownUntil with
     | some t => [max 0 (t - now)]
     | none => []) ++
    waitTimesOf now rest

/-- Variadic `Math.min(...xs)` for the non-empty case guarded by the
source. -/
def jsMathMin : List Int → Int
  | [] => 0
  | x :: xs => xs.foldl min x

/-- The method `getMinWaitTime`: `0` when any account is available
(after lazy clearing), else the minimum of the outstanding timer deltas,
or `0` when there are none. -/
def getMinWaitTime (now : Int) (m : AccountManager) : Int × AccountManager :=
  let stepped := m.accounts.map (availStep now)
  let accounts1 := stepped.map Prod.fst
  if 0 < (stepped.filter (fun p => p.2)).length then
    (0, { m with accounts := accounts1 })
  else
    let waits := waitTimesOf now accounts1
    (if 0 < waits.length then jsMathMin waits else 0,
     { m with accounts := accounts1 })

/-- Decidable form of the pool invariant that every account's `index`
field equals its position (spec §3: dense 0..N-1 permutation). -/
def wellIndexed (l : List ManagedAccount) : Bool :=
  (List.range l.length).all fun i =>
    match l.get? i with
    | some a => a.index = i
    | none => false

/-- Modelled from the spec: the rate-limit hint extraction of the
`handleErrorResponse` imported by `src/index.ts` is absent from this
snapshot (the copy under `src/lib/request/fetch-helpers.ts` predates the
`rateLimit` result field), so the hint is modelled from the spec's
interface contract: "Rate-limit signal: HTTP 429; optional `retry-after`
header in seconds, defaulting to 60s if absent or unparsable". -/
def parseRetryAfterSeconds (s : String) : Option Nat :=
  if s.data ≠ [] ∧ s.data.all Char.isDigit then
    some (s.data.foldl (fun acc c => acc * 10 + (c.toNat - 48)) 0)
  else
    none

/-- Modelled from the spec: the retry hint in milliseconds for a 429
response — the parsed `retry-after` seconds times 1000, or 60000 when the
header is absent or unparsable. -/
def rateLimitRetryAfterMs (retryAfterHeader : Option String) : Int :=
  match retryAfterHeader with
  | some s =>
    match parseRetryAfterSeconds s with
    | some secs => (secs : Int) * 1000
    | none => 60000
  | none => 60000

/-- The 429 branch of the orchestrator's fetch loop
(`src/index.ts:495-504`) on the account at position `pos`:
`markRateLimited(account, rateLimit.retryAfterMs)` followed by
`markSwitched(account, "rate-limit")` (the retry hint itself is
spec-modelled, see `rateLimitRetryAfterMs`). -/
def handle429 (now : Int) (m : AccountManager) (pos : Nat)
    (retryAfterHeader : Option String) : AccountManager :=
  markSwitched (markRateLimited now m pos (rateLimitRetryAfterMs retryAfterHeader))
    pos .rateLimit

/-- Decidable statement that an account carries no future unavailability
timer at `now` (neither `rateLimitResetTime` nor `coolingDownUntil` lies
in the future). -/
def noFutureTimers (now : Int) (a : ManagedAccount) : Bool :=
  (match a.rateLimitResetTime with
   | some t => decide (t ≤ now)
   | none => true) &&
  (match a.coolingDownUntil with
   | some t => decide (t ≤ now)
   | none => true)

/-! ## Durable store (`src/lib/storage.ts`) -/

/-- The durable `AccountMetadataV1` record. Optional fields are
`Option`; timestamps are millisecond `Int`s. -/
structure AccountMetadataV1 where
  accountId : Option String
  refreshToken : String
  addedAt : Int
  lastUsed : Int
  lastSwitchReason : Option SwitchReason
  rateLimitResetTime : Option Int
  coolingDownUntil : Option Int
  cooldownReason : Option CooldownReason
deriving DecidableEq

/-- The string expression `account.accountId || account.refreshToken`
shared by `toAccountKey` and the dedup loop (an absent or empty
`accountId` falls back to the refresh token). -/
def jsKey (a : AccountMetadataV1) : String :=
  match a.accountId with
  | some id => if id = "" then a.refreshToken else id
  | none => a.refreshToken

/-- The dedup key of a record, or `none` when the fallback chain is
still falsy (`if (!key) continue` in `deduplicateAccounts`). -/
def dedupKey (a : AccountMetadataV1) : Option String :=
  if jsKey a = "" then none else some (jsKey a)

/-- The comparison of `selectNewestAccount`, expressed as "does the
candidate replace the incumbent": strictly greater `lastUsed` wins,
strictly smaller loses, and on a tie `addedAt >=` sides with the
candidate (`account.lastUsed || 0` is the identity on the embedded
integers). -/
def candidateWins (current candidate : AccountMetadataV1) : Bool :=
  if current.lastUsed < candidate.lastUsed then true
  else if candidate.lastUsed < current.lastUsed then false
  else current.addedAt ≤ candidate.addedAt

/-- Lookup in the association-list embedding of the ES `Map` keyed by
dedup key. -/
def mapGet : List (String × Nat) → String → Option Nat
  | [], _ => none
  | (k', v) :: rest, k => if k' = k then some v else mapGet rest k

/-- Update-or-append in the association-list embedding of the ES `Map`
(`Map.prototype.set` overwrites in place, keeping insertion order). -/
def mapSet (m : List (String × Nat)) (k : String) (v : Nat) :
    List (String × Nat) :=
  match m with
  | [] => [(k, v)]
  | (k', v') :: rest =>
    if k' = k then (k, v) :: rest else (k', v') :: mapSet rest k v

/-- Index annotation of the `for (let i = 0; ...)` loop. -/
def withIdx : Nat → List α → List (Nat × α)
  | _, [] => []
  | n, x :: xs => (n, x) :: withIdx (n + 1) xs

/-- The key-to-index scan of `deduplicateAccounts`: walk the indexed
records; a keyless record is skipped; a fresh key maps to the current
index; a seen key keeps whichever of `accounts[existingIndex]` and the
candidate `selectNewestAccount` prefers (the out-of-range branch mirrors
`selectNewestAccount(undefined, account)` returning the candidate). -/
def dedupScan (accounts : List AccountMetadataV1) :
    List (Nat × AccountMetadataV1) → List (String × Nat) → List (String × Nat)
  | [], m => m
  | (i, account) :: rest, m =>
    match dedupKey account with
    | none => dedupScan accounts rest m
    | some key =>
      match mapGet m key with
      | none => dedupScan accounts rest (mapSet m key i)
      | some existingIndex =>
        match accounts.get? existingIndex with
        | none => dedupScan accounts rest (mapSet m key i)
        | some existing =>
          dedupScan accounts rest
            (mapSet m key (if candidateWins existing account then i else existingIndex))

/-- The function `deduplicateAccounts` (`src/lib/storage.ts:51-86`):
build the key-to-index map, collect the surviving indices, and keep the
records at those indices in original order. -/
def deduplicateAccounts (accounts : List AccountMetadataV1) :
    List AccountMetadataV1 :=
  let keyToIndex := dedupScan accounts (withIdx 0 accounts) []
  let keep := keyToIndex.map (·.2)
  ((withIdx 0 accounts).filter (fun p => keep.contains p.1)).map (·.2)

/-- The helper `clampIndex`: `0` for an empty list, else clamp into
`[0, length - 1]`. -/
def clampIndex (index : Int) (length : Nat) : Int :=
  if length = 0 then 0 else max 0 (min index ((length : Int) - 1))

/-- The helper `extractActiveKey`, on the typed domain (see
`normalizeAccountStorage`): read the record at the raw active index and
return its `accountId` when that is a string with non-blank trim, else
its `refreshToken` under the same test, else `undefined`. The test
`candidate.accountId.trim()` (truthiness of the trimmed string) is
embedded as "has a non-whitespace character". -/
def extractActiveKey (accounts : List AccountMetadataV1) (activeIndex : Int) :
    Option String :=
  match (if activeIndex < 0 then none else accounts.get? activeIndex.toNat) with
  | none => none
  | some candidate =>
    let accountId :=
      match candidate.accountId with
      | some id => if id.data.any (fun c => !isJsSpace c) then some id else none
      | none => none
    let refreshToken :=
      if candidate.refreshToken.data.any (fun c => !isJsSpace c) then
        some candidate.refreshToken
      else none
    match accountId with
    | some id => some id
    | none => refreshToken

/-- The normalized `AccountStorageV1` document (its `version` is always
the literal `1`). -/
structure AccountStorageV1 where
  accounts : List AccountMetadataV1
  activeIndex : Int
deriving DecidableEq

/-- Raw storage input of `normalizeAccountStorage`, on the typed domain:
a version-tagged record whose `accounts` entries are well-typed records
(so the `isRecord`/`typeof refreshToken === "string"` filter at
`src/lib/storage.ts:146-149` passes them all) and whose `activeIndex` is
`none` when it is not a finite number. -/
structure RawStorageV1 where
  version : Int
  accounts : List AccountMetadataV1
  activeIndexRaw : Option Int
deriving DecidableEq

/-- The function `normalizeAccountStorage` (`src/lib/storage.ts:119-171`)
on the typed domain: reject a wrong version; clamp the raw active index
into the pre-dedup bounds; capture the active record's key; dedup; remap
`activeIndex` to the first deduplicated record whose
`toAccountKey` equals the captured key, falling back to clamping the raw
index into the post-dedup bounds. -/
def normalizeAccountStorage (raw : RawStorageV1) : Option AccountStorageV1 :=
  if raw.version ≠ 1 then none
  else
    let activeIndexValue :=
      match raw.activeIndexRaw with
      | some n => n
      | none => 0
    let rawActiveIndex := clampIndex activeIndexValue raw.accounts.length
    let activeKey := extractActiveKey raw.accounts rawActiveIndex
    let deduplicatedAccounts := deduplicateAccounts raw.accounts
    let activeIndex : Int :=
      if deduplicatedAccounts.length = 0 then 0
      else
        match activeKey with
        | some key =>
          match deduplicatedAccounts.findIdx? (fun a => jsKey a = key) with
          | some mappedIndex => (mappedIndex : Int)
          | none => clampIndex rawActiveIndex deduplicatedAccounts.length
        | none => clampIndex rawActiveIndex deduplicatedAccounts.length
    some ⟨deduplicatedAccounts, activeIndex⟩

/-! ## Fetch helpers (`src/lib/request/fetch-helpers.ts`, `src/index.ts`) -/

/-- The `Auth` union handed to `shouldRefreshToken`: an OAuth credential
or any non-OAuth variant (API key). -/
inductive Auth where
  | oauth (access refresh : String) (expires : Int)
  | api (key : String)
deriving DecidableEq

/-- The function `shouldRefreshToken`:
`auth.type !== "oauth" || !auth.access || auth.expires < Date.now()`. -/
def shouldRefreshToken (now : Int) : Auth → Bool
  | .api _ => true
  | .oauth access _ expires => access = "" || decide (expires < now)

/-- The body read at the top of the orchestrator's fetch
(`src/index.ts:395`): `init?.body ? JSON.parse(init.body as string) : {}`.
The `JSON.parse` is not guarded, so its failure propagates as `.error`. -/
def fetchReadBody (jp : String → Except String Json) (body? : Option String) :
    Except String Json :=
  match body? with
  | none => .ok .objNil
  | some b => if b = "" then .ok .objNil else jp b

/-- The body-parse guard of `transformRequestForCodex`
(`src/lib/request/fetch-helpers.ts:1655-1718` region): no body yields
`undefined`, and a `JSON.parse` failure is caught, logged and turned
into `undefined` so the call proceeds with the untransformed request. -/
def transformParseBody (jp : String → Except String Json)
    (body? : Option String) : Option Json :=
  match body? with
  | none => none
  | some b =>
    if b = "" then none
    else
      match jp b with
      | .ok j => some j
      | .error _ => none

/-! ## Lemmas about the stream parser -/

/-- Reduction of `Except` bind on a success. -/
theorem except_bind_ok {α β ε : Type} (a : α) (f : α → Except ε β) :
    ((Except.ok a : Except ε α) >>= f) = f a := rfl

/-- Reduction of `Except` bind on a failure. -/
theorem except_bind_error {α β ε : Type} (e : ε) (f : α → Except ε β) :
    ((Except.error e : Except ε α) >>= f) = Except.error e := rfl

/-- Reduction of `Except` map on a success. -/
theorem except_map_ok {α β ε : Type} (a : α) (f : α → β) :
    (f <$> (Except.ok a : Except ε α)) = Except.ok (f a) := rfl

/-- Reduction of `Except` map on a failure. -/
theorem except_map_error {α β ε : Type} (e : ε) (f : α → β) :
    (f <$> (Except.error e : Except ε α)) = (Except.error e : Except ε β) := rfl

/-- Reduction of `pure` in `Except`. -/
theorem except_pure {α ε : Type} (a : α) :
    (pure a : Except ε α) = Except.ok a := rfl

/-- Reduction of `Except.tryCatch` on a success. -/
theorem except_tryCatch_ok {α ε : Type} (a : α) (h : ε → Except ε α) :
    Except.tryCatch (Except.ok a) h = Except.ok a := rfl

/-- Reduction of `Except.tryCatch` on a failure. -/
theorem except_tryCatch_error {α ε : Type} (e : ε) (h : ε → Except ε α) :
    Except.tryCatch (Except.error e) h = h e := rfl

/-- Processing an event always records it as `lastEvent`. -/
theorem processEvent_lastEvent (st : SseResult) (p : Json) :
    (processEvent st p).lastEvent = some p := by
  unfold processEvent
  cases p.getField "response"
  · rfl
  · simp only []
    split <;> rfl

/-- The flush helper never lets a parse failure escape. -/
theorem tryFlushE_ok (jp : String → Except String Json) (pending : List String)
    (st : SseResult) : ∃ r, tryFlushE jp pending st = .ok r := by
  cases pending with
  | nil => exact ⟨(false, [], st), rfl⟩
  | cons h t =>
    unfold tryFlushE
    cases hj : jp (String.intercalate "\n" (h :: t)) with
    | ok parsed =>
      refine ⟨(true, [], processEvent st parsed), ?_⟩
      simp only [hj, except_bind_ok, except_bind_error, except_map_ok,
        except_map_error, except_pure, except_tryCatch_ok, except_tryCatch_error]
    | error e =>
      refine ⟨(false, h :: t, st), ?_⟩
      simp only [hj, except_bind_ok, except_bind_error, except_map_ok,
        except_map_error, except_pure, except_tryCatch_ok, except_tryCatch_error]

/-- The flush helper either keeps the state or processes one event. -/
theorem tryFlushE_state (jp : String → Except String Json)
    (pending : List String) (st : SseResult)
    (r : Bool × List String × SseResult)
    (h : tryFlushE jp pending st = .ok r) :
    r.2.2 = st ∨ ∃ p, r.2.2 = processEvent st p := by
  cases pending with
  | nil =>
    unfold tryFlushE at h
    cases h
    exact .inl rfl
  | cons hd t =>
    unfold tryFlushE at h
    cases hj : jp (String.intercalate "\n" (hd :: t)) with
    | ok parsed =>
      simp only [hj, except_bind_ok, except_bind_error, except_map_ok,
        except_map_error, except_pure, except_tryCatch_ok, except_tryCatch_error] at h
      cases h
      exact .inr ⟨parsed, rfl⟩
    | error e =>
      simp only [hj, except_bind_ok, except_bind_error, except_map_ok,
        except_map_error, except_pure, except_tryCatch_ok, except_tryCatch_error] at h
      cases h
      exact .inl rfl

/-- The line loop never lets a parse failure escape. -/
theorem sseLoopE_ok (jp : String → Except String Json) (lines : List (List Char)) :
    ∀ pending st, ∃ r, sseLoopE jp lines pending st = .ok r := by
  induction lines with
  | nil =>
    intro pending st
    obtain ⟨r, hr⟩ := tryFlushE_ok jp pending st
    refine ⟨r.2.2, ?_⟩
    unfold sseLoopE
    simp only [hr, except_bind_ok, except_pure]
  | cons line rest ih =>
    intro pending st
    by_cases hline : line = []
    · obtain ⟨r, hr⟩ := tryFlushE_ok jp pending st
      obtain ⟨out, hout⟩ := ih [] r.2.2
      refine ⟨out, ?_⟩
      unfold sseLoopE
      simp only [hline, if_true, hr, except_bind_ok]
      exact hout
    · by_cases hdata : isDataLine line = true
      · obtain ⟨r, hr⟩ := tryFlushE_ok jp (pending ++ [String.mk (stripDataTag line)]) st
        by_cases hflag : r.1 = true
        · obtain ⟨out, hout⟩ := ih r.2.1 r.2.2
          refine ⟨out, ?_⟩
          unfold sseLoopE
          simp only [hline, if_false, hdata, if_true, hr, except_bind_ok, hflag]
          exact hout
        · cases hj : jp (String.mk (stripDataTag line)) with
          | ok parsed =>
            obtain ⟨out, hout⟩ := ih [] (processEvent r.2.2 parsed)
            refine ⟨out, ?_⟩
            unfold sseLoopE
            simp only [hline, if_false, hdata, if_true, hr, except_bind_ok, hflag,
              hj, except_map_ok, except_map_error, except_pure, except_tryCatch_ok,
              except_tryCatch_error, if_neg, Bool.not_eq_true]
            exact hout
          | error e =>
            obtain ⟨out, hout⟩ := ih r.2.1 r.2.2
            refine ⟨out, ?_⟩
            unfold sseLoopE
            simp only [hline, if_false, hdata, if_true, hr, except_bind_ok, hflag,
              hj, except_map_ok, except_map_error, except_pure, except_tryCatch_ok,
              except_tryCatch_error, if_neg, Bool.not_eq_true]
            exact hout
      · obtain ⟨out, hout⟩ := ih pending st
        refine ⟨out, ?_⟩
        unfold sseLoopE
        simp only [hline, if_false, hdata]
        exact hout

/-- The line loop leaves the tracking state untouched unless it
processed at least one event, in which case `lastEvent` is set. -/
theorem sseLoopE_state (jp : String → Except String Json)
    (lines : List (List Char)) :
    ∀ pending st r, sseLoopE jp lines pending st = .ok r →
      r = st ∨ r.lastEvent.isSome = true := by
  induction lines with
  | nil =>
    intro pending st r h
    obtain ⟨rf, hrf⟩ := tryFlushE_ok jp pending st
    unfold sseLoopE at h
    simp only [hrf, except_bind_ok, except_pure] at h
    cases h
    rcases tryFlushE_state jp pending st rf hrf with h1 | ⟨p, hp⟩
    · exact .inl h1
    · right
      rw [hp, processEvent_lastEvent]
      rfl
  | cons line rest ih =>
    intro pending st r h
    by_cases hline : line = []
    · obtain ⟨rf, hrf⟩ := tryFlushE_ok jp pending st
      unfold sseLoopE at h
      simp only [hline, if_true, hrf, except_bind_ok] at h
      rcases ih [] rf.2.2 r h with h2 | h2
      · rcases tryFlushE_state jp pending st rf hrf with h1 | ⟨p, hp⟩
        · exact .inl (h2.trans h1)
        · right
          rw [h2, hp, processEvent_lastEvent]
          rfl
      · exact .inr h2
    · by_cases hdata : isDataLine line = true
      · obtain ⟨rf, hrf⟩ :=
          tryFlushE_ok jp (pending ++ [String.mk (stripDataTag line)]) st
        by_cases hflag : rf.1 = true
        · unfold sseLoopE at h
          simp only [hline, if_false, hdata, if_true, hrf, except_bind_ok,
            hflag] at h
          rcases ih rf.2.1 rf.2.2 r h with h2 | h2
          · rcases tryFlushE_state jp _ st rf hrf with h1 | ⟨p, hp⟩
            · exact .inl (h2.trans h1)
            · right
              rw [h2, hp, processEvent_lastEvent]
              rfl
          · exact .inr h2
        · cases hj : jp (String.mk (stripDataTag line)) with
          | ok parsed =>
            unfold sseLoopE at h
            simp only [hline, if_false, hdata, if_true, hrf, except_bind_ok,
              hflag, hj, except_map_ok, except_map_error, except_pure,
              except_tryCatch_ok, except_tryCatch_error, if_neg,
              Bool.not_eq_true] at h
            rcases ih [] (processEvent rf.2.2 parsed) r h with h2 | h2
            · right
              rw [h2, processEvent_lastEvent]
              rfl
            · exact .inr h2
          | error e =>
            unfold sseLoopE at h
            simp only [hline, if_false, hdata, if_true, hrf, except_bind_ok,
              hflag, hj, except_map_ok, except_map_error, except_pure,
              except_tryCatch_ok, except_tryCatch_error, if_neg,
              Bool.not_eq_true] at h
            rcases ih rf.2.1 rf.2.2 r h with h2 | h2
            · rcases tryFlushE_state jp _ st rf hrf with h1 | ⟨p, hp⟩
              · exact .inl (h2.trans h1)
              · right
                rw [h2, hp, processEvent_lastEvent]
                rfl
            · exact .inr h2
      · unfold sseLoopE at h
        simp only [hline, if_false, hdata] at h
        exact ih pending st r h

/-- A parse result with no `lastEvent` recorded nothing at all. -/
theorem parseSseStream_none (jp : String → Except String Json) (text : String)
    (r : SseResult) (hp : parseSseStream jp text = .ok r)
    (hnone : r.lastEvent = none) : r = ⟨none, none, none⟩ := by
  rcases sseLoopE_state jp (sseLines text) [] ⟨none, none, none⟩ r hp with h | h
  · exact h
  · rw [hnone] at h
    cases h

/-! ## C10: totality of the stream parser -/

/-- C10: `parseSseStream` is total over its input: for every parse
function and every stream text (empty, non-SSE, interleaved garbage,
multi-line or truncated payloads alike) it returns a result record, and
no `JSON.parse` failure escapes — each one is absorbed by the
`try/catch` discipline of the loop (continue accumulating or discard the
buffer). -/
theorem parseSseStream_total (jp : String → Except String Json) (s : String) :
    ∃ r, parseSseStream jp s = .ok r :=
  sseLoopE_ok jp (sseLines s) [] ⟨none, none, none⟩

/-! ## C3: SSE-to-JSON conversion tiers -/

/-- C3 (amended): the conversion returns, with the original status, the
nested response of the last terminal event when one parsed and is not a
falsy JSON value; else (when that tier is nullish) the last parsed
event's nested response object under the same proviso; else the last
parsed event itself under the same proviso; when nothing parsed at all
it returns the original raw stream text; and whenever the selected
payload is falsy (`null`, `false`, `0`, `""`) it also degrades to the
raw stream text with the original status. -/
theorem convertSseToJson_tiers (jp : String → Except String Json)
    (text : String) (status : Nat) (r : SseResult)
    (hp : parseSseStream jp text = .ok r) :
    (∀ j, r.finalResponse = some j → jsFalsy j = false →
      convertSseToJson jp text status = .ok ⟨.json j, status⟩) ∧
    (jsNullish r.finalResponse = true → ∀ j, r.lastResponseLike = some j →
      jsFalsy j = false →
      convertSseToJson jp text status = .ok ⟨.json j, status⟩) ∧
    (jsNullish r.finalResponse = true → jsNullish r.lastResponseLike = true →
      ∀ j, r.lastEvent = some j → jsFalsy j = false →
      convertSseToJson jp text status = .ok ⟨.json j, status⟩) ∧
    (r.lastEvent = none →
      convertSseToJson jp text status = .ok ⟨.raw text, status⟩) ∧
    (∀ j,
      jsCoalesce r.finalResponse (jsCoalesce r.lastResponseLike r.lastEvent) = some j →
      jsFalsy j = true →
      convertSseToJson jp text status = .ok ⟨.raw text, status⟩) := by
  refine ⟨?_, ?_, ?_, ?_, ?_⟩
  · intro j hj hf
    have hnn : jsNullish (some j) = false := by
      cases j <;> simp_all [jsFalsy, jsNullish]
    unfold convertSseToJson
    simp [hp, except_bind_ok, jsCoalesce, hj, hnn, hf, except_pure]
  · intro hn j hj hf
    have hnn : jsNullish (some j) = false := by
      cases j <;> simp_all [jsFalsy, jsNullish]
    unfold convertSseToJson
    simp [hp, except_bind_ok, jsCoalesce, hn, hj, hnn, hf, except_pure]
  · intro hn hn2 j hj hf
    have hnn : jsNullish (some j) = false := by
      cases j <;> simp_all [jsFalsy, jsNullish]
    unfold convertSseToJson
    simp [hp, except_bind_ok, jsCoalesce, hn, hn2, hj, hnn, hf, except_pure]
  · intro hnone
    have hr := parseSseStream_none jp text r hp hnone
    subst hr
    unfold convertSseToJson
    simp [hp, except_bind_ok, jsCoalesce, jsNullish, except_pure]
  · intro j hsel hf
    unfold convertSseToJson
    simp [hp, except_bind_ok, hsel, hf, except_pure]

/-- Parse table for the C3 witness: the event payload string `EVT`
parses to a terminal `response.done` event whose nested response is the
object `\x7b"id": "r1"\x7d` (the abstract `JSON.parse` parameter lets the
witness name the payload without embedding raw JSON text). -/
def sseDemoParser : String → Except String Json :=
  jpTable [("EVT", .objCons "type" (.str "response.done")
    (.objCons "response" (.objCons "id" (.str "r1") .objNil) .objNil))]

/-- Witness for C3: a single well-formed terminal event yields exactly
that event's nested result as the JSON body. -/
theorem convertSseToJson_tiers_witness :
    convertSseToJson sseDemoParser "data: EVT" 200 =
      .ok ⟨.json (.objCons "id" (.str "r1") .objNil), 200⟩ :=
  (convertSseToJson_tiers sseDemoParser "data: EVT" 200
    ⟨some (.objCons "id" (.str "r1") .objNil),
     some (.objCons "type" (.str "response.done")
       (.objCons "response" (.objCons "id" (.str "r1") .objNil) .objNil)),
     some (.objCons "id" (.str "r1") .objNil)⟩ rfl).1
    (.objCons "id" (.str "r1") .objNil) rfl rfl

/-- Parse table for the C3 counterexample: the line `0` parses to the
JSON number `0`, exactly as `JSON.parse("0")` does. -/
def sseZeroParser : String → Except String Json :=
  jpTable [("0", .num 0)]

/-- Counterexample for C3 as stated: on the stream `data: 0` a line does
parse as JSON (the last parsed event is the number `0`), yet the
conversion does not return that event as the body — the falsy-payload
check degrades to the raw stream text even though JSON was parsed. -/
theorem convertSseToJson_falsy_cex :
    parseSseStream sseZeroParser "data: 0" = .ok ⟨none, some (.num 0), none⟩ ∧
    convertSseToJson sseZeroParser "data: 0" 200 = .ok ⟨.raw "data: 0", 200⟩ ∧
    convertSseToJson sseZeroParser "data: 0" 200 ≠ .ok ⟨.json (.num 0), 200⟩ := by
  refine ⟨rfl, rfl, ?_⟩
  decide

/-! ## C5: token-expiry check -/

/-- C5 (amended): `shouldRefreshToken` returns true exactly when the
credential is not OAuth, no access token is held, or the expiry instant
is strictly before now; an expiry exactly equal to the current instant
is NOT classified as expired. -/
theorem shouldRefreshToken_exact (now : Int) (access refresh : String)
    (expires : Int) (key : String) :
    (shouldRefreshToken now (.oauth access refresh expires) = true ↔
      access = "" ∨ expires < now) ∧
    shouldRefreshToken now (.api key) = true := by
  constructor
  · simp [shouldRefreshToken]
  · rfl

/-- Counterexample for C5 as stated: an OAuth credential whose expiry
equals the current instant is NOT classified as needing refresh
(`auth.expires < Date.now()` is strict), contradicting the claim that
expiry-at-now counts as expired. -/
theorem shouldRefreshToken_boundary_cex :
    shouldRefreshToken 1000 (.oauth "tok" "ref" 1000) = false := by
  decide

/-! ## C4: malformed inbound body -/

/-- C4 (code bug): when the inbound body is present but unparseable, the
unguarded `JSON.parse` at `src/index.ts:395` propagates the failure out
of the fetch handler, while the guard inside `transformRequestForCodex`
(which the claim and the spec describe) absorbs the same failure into a
`undefined`/proceed-with-default result. -/
theorem fetchReadBody_propagates (jp : String → Except String Json)
    (e : String) (h : jp "not json" = .error e) :
    fetchReadBody jp (some "not json") = .error e ∧
    transformParseBody jp (some "not json") = none := by
  constructor
  · simp [fetchReadBody, h]
  · simp [transformParseBody, h]

/-- Witness for C4: with a parse function failing on the malformed body
(as `JSON.parse` does), the fetch prelude really surfaces the error. -/
theorem fetchReadBody_propagates_witness :
    fetchReadBody (jpTable []) (some "not json") = .error "SyntaxError" ∧
    transformParseBody (jpTable []) (some "not json") = none :=
  fetchReadBody_propagates (jpTable []) "SyntaxError" rfl

/-! ## Lemmas about the account pool -/

/-- Clearing an expired rate limit does not change whether the account
is rate-limited now. -/
theorem isRateLimited_clear (now : Int) (a : ManagedAccount) :
    isRateLimited now (clearExpiredRateLimit now a) = isRateLimited now a := by
  unfold clearExpiredRateLimit isRateLimited
  rcases hrl : a.rateLimitResetTime with _ | t
  · simp [hrl]
  · simp only [hrl]
    split_ifs with h1
    · simp
      omega
    · simp [hrl]

/-- Clearing an expired rate limit does not change the cooldown
fields. -/
theorem clear_cooldown_eq (now : Int) (a : ManagedAccount) :
    (clearExpiredRateLimit now a).coolingDownUntil = a.coolingDownUntil := by
  unfold clearExpiredRateLimit
  rcases hrl : a.rateLimitResetTime with _ | t
  · rfl
  · dsimp only
    split_ifs <;> rfl

/-- Clearing an expired rate limit does not change the index field. -/
theorem clear_index_eq (now : Int) (a : ManagedAccount) :
    (clearExpiredRateLimit now a).index = a.index := by
  unfold clearExpiredRateLimit
  rcases hrl : a.rateLimitResetTime with _ | t
  · rfl
  · dsimp only
    split_ifs <;> rfl

/-- Clearing an expired rate limit does not change availability. -/
theorem isAvailableNow_clear (now : Int) (a : ManagedAccount) :
    isAvailableNow now (clearExpiredRateLimit now a) = isAvailableNow now a := by
  unfold isAvailableNow
  rw [isRateLimited_clear, clear_cooldown_eq]

/-- When an account is not rate-limited after the lazy clear, its reset
time is gone. -/
theorem clear_not_limited (now : Int) (a : ManagedAccount)
    (h : isRateLimited now (clearExpiredRateLimit now a) = false) :
    (clearExpiredRateLimit now a).rateLimitResetTime = none := by
  unfold clearExpiredRateLimit at h ⊢
  rcases hrl : a.rateLimitResetTime with _ | t
  · simp [hrl]
  · simp only [hrl] at h ⊢
    split_ifs at h ⊢ with h1
    · rfl
    · simp [isRateLimited, hrl] at h
      omega

/-- When the cooldown check reports false, the returned account has no
cooldown window, and its reset time and index are unchanged. -/
theorem cooling_false (now : Int) (a : ManagedAccount)
    (h : (isAccountCoolingDown now a).1 = false) :
    (isAccountCoolingDown now a).2.coolingDownUntil = none ∧
    (isAccountCoolingDown now a).2.rateLimitResetTime = a.rateLimitResetTime ∧
    (isAccountCoolingDown now a).2.index = a.index := by
  unfold isAccountCoolingDown at h ⊢
  rcases hcd : a.coolingDownUntil with _ | t
  · exact ⟨hcd, rfl, rfl⟩
  · simp only [hcd] at h ⊢
    split_ifs at h ⊢ with h1
    exact ⟨rfl, rfl, rfl⟩

/-- When the cooldown check reports true, the account is returned
untouched. -/
theorem cooling_true (now : Int) (a : ManagedAccount)
    (h : (isAccountCoolingDown now a).1 = true) :
    (isAccountCoolingDown now a).2 = a := by
  unfold isAccountCoolingDown at h ⊢
  rcases hcd : a.coolingDownUntil with _ | t
  · simp only [hcd] at h
    cases h
  · simp only [hcd] at h ⊢
    split_ifs at h ⊢ with h1
    simp_all

/-- The availability filter flag equals the pure availability
predicate of the examined account. -/
theorem availStep_snd (now : Int) (a : ManagedAccount) :
    (availStep now a).2 = isAvailableNow now a := by
  unfold availStep
  dsimp only
  split_ifs with h1
  · unfold isAvailableNow
    rw [isRateLimited_clear] at h1
    rw [h1]
    rfl
  · rw [Bool.not_eq_true] at h1
    unfold isAvailableNow
    rw [isRateLimited_clear] at h1
    rw [h1]
    unfold isAccountCoolingDown
    rw [← clear_cooldown_eq now a]
    rcases hcd : (clearExpiredRateLimit now a).coolingDownUntil with _ | t
    · simp [hcd]
    · simp only [hcd]
      split_ifs with h2
      · simp
        omega
      · simp
        omega

/-- The availability filter does not change the account's index. -/
theorem availStep_index (now : Int) (a : ManagedAccount) :
    (availStep now a).1.index = a.index := by
  unfold availStep
  dsimp only
  split_ifs with h1
  · exact clear_index_eq now a
  · by_cases hc : (isAccountCoolingDown now (clearExpiredRateLimit now a)).1 = true
    · rw [cooling_true now _ hc]
      exact clear_index_eq now a
    · rw [Bool.not_eq_true] at hc
      rcases cooling_false now _ hc with ⟨-, -, h3⟩
      rw [h3]
      exact clear_index_eq now a

/-- A flagged-available step result carries no future timers: its reset
time and cooldown window are both cleared. -/
theorem availStep_true (now : Int) (a a' : ManagedAccount)
    (h : availStep now a = (a', true)) :
    a'.rateLimitResetTime = none ∧ a'.coolingDownUntil = none := by
  unfold availStep at h
  dsimp only at h
  split_ifs at h with h1
  · cases h
  · rw [Bool.not_eq_true] at h1
    have hflag : (isAccountCoolingDown now (clearExpiredRateLimit now a)).1 = false := by
      have h2 := congrArg Prod.snd h
      simp only at h2
      rw [Bool.not_eq_eq_eq_not] at h2
      simp at h2
      exact h2
    have ha' : a' = (isAccountCoolingDown now (clearExpiredRateLimit now a)).2 := by
      have h2 := congrArg Prod.fst h
      simp only at h2
      exact h2.symm
    rcases cooling_false now _ hflag with ⟨hcd, hrl, -⟩
    rw [ha']
    refine ⟨?_, hcd⟩
    rw [hrl]
    exact clear_not_limited now a h1
/-- The round-robin pick returns an element that appears in the stepped
list with its availability flag set. -/
theorem pickNthAvail_get (l : List (ManagedAccount × Bool)) :
    ∀ k a, pickNthAvail l k = some a → ∃ p, l.get? p = some (a, true) := by
  induction l with
  | nil =>
    intro k a h
    cases h
  | cons x rest ih =>
    intro k a h
    rcases x with ⟨b, flag⟩
    cases flag with
    | true =>
      cases k with
      | zero =>
        cases h
        exact ⟨0, rfl⟩
      | succ k =>
        obtain ⟨p, hp⟩ := ih k a h
        exact ⟨p + 1, hp⟩
    | false =>
      obtain ⟨p, hp⟩ := ih k a h
      exact ⟨p + 1, hp⟩

/-- The round-robin pick succeeds whenever its index is below the
number of flagged elements. -/
theorem pickNthAvail_isSome (l : List (ManagedAccount × Bool)) :
    ∀ k, k < (l.filter (fun p => p.2)).length → ∃ a, pickNthAvail l k = some a := by
  induction l with
  | nil =>
    intro k h
    simp at h
  | cons x rest ih =>
    intro k h
    rcases x with ⟨b, flag⟩
    cases flag with
    | true =>
      cases k with
      | zero => exact ⟨b, rfl⟩
      | succ k =>
        simp only [List.filter_cons_of_pos, List.length_cons] at h
        obtain ⟨a, ha⟩ := ih k (by omega)
        exact ⟨a, ha⟩
    | false =>
      simp only [List.filter_cons_of_neg, Bool.false_eq_true,
        not_false_eq_true] at h
      obtain ⟨a, ha⟩ := ih k (by simpa using h)
      exact ⟨a, ha⟩

/-- Characterization of the account returned by `getNextAvailable`. -/
theorem getNextAvailable_fst (now : Int) (m : AccountManager) :
    (getNextAvailable now m).1 =
      (if ((m.accounts.map (availStep now)).filter (fun p => p.2)).length = 0 then none
       else (pickNthAvail (m.accounts.map (availStep now))
            (m.cursor % ((m.accounts.map (availStep now)).filter (fun p => p.2)).length)).map
            (fun a => { a with lastUsed := now })) := by
  unfold getNextAvailable
  dsimp only
  split_ifs with hc
  · rfl
  · rcases pickNthAvail (m.accounts.map (availStep now))
        (m.cursor % ((m.accounts.map (availStep now)).filter (fun p => p.2)).length)
      with _ | a0
    · rfl
    · rfl

/-- A successful `getNextAvailable` returns an account with both timers
clear, whose underlying pool entry was available and shares its
`index`. -/
theorem getNextAvailable_some (now : Int) (m : AccountManager)
    (a : ManagedAccount) (h : (getNextAvailable now m).1 = some a) :
    a.rateLimitResetTime = none ∧ a.coolingDownUntil = none ∧
    ∃ p b, m.accounts.get? p = some b ∧ isAvailableNow now b = true ∧
      a.index = b.index := by
  rw [getNextAvailable_fst] at h
  split_ifs at h with hc
  obtain ⟨a0, hpick, ha⟩ := Option.map_eq_some'.mp h
  obtain ⟨p, hp⟩ := pickNthAvail_get _ _ _ hpick
  rw [List.get?_map] at hp
  obtain ⟨b, hb, hstep⟩ := Option.map_eq_some'.mp hp
  obtain ⟨hrl, hcd⟩ := availStep_true now b a0 hstep
  have hidx : a0.index = b.index := by
    have h2 := availStep_index now b
    rw [hstep] at h2
    exact h2
  have hav : isAvailableNow now b = true := by
    have h2 := availStep_snd now b
    rw [hstep] at h2
    exact h2.symm
  subst ha
  exact ⟨hrl, hcd, p, b, hb, hav, hidx⟩

/-- When no account is available, `getNextAvailable` yields nothing. -/
theorem getNextAvailable_blocked (now : Int) (m : AccountManager)
    (hall : ∀ x ∈ m.accounts, isAvailableNow now x = false) :
    (getNextAvailable now m).1 = none := by
  have hf : ((m.accounts.map (availStep now)).filter (fun p => p.2)) = [] := by
    rw [List.filter_eq_nil_iff]
    intro p hp
    obtain ⟨b, hb, hbeq⟩ := List.mem_map.mp hp
    have h2 : p.2 = isAvailableNow now b := by
      rw [← hbeq]
      exact availStep_snd now b
    rw [h2, hall b hb]
    simp
  rw [getNextAvailable_fst, hf]
  rfl

/-- Characterization of `rotateToNext` by the `getNextAvailable`
result. -/
theorem rotateToNext_eq (now : Int) (m : AccountManager) :
    rotateToNext now m =
      (match (getNextAvailable now m).1 with
       | some a =>
         (some a, { (getNextAvailable now m).2 with activeIndex := (a.index : Int) })
       | none => (none, (getNextAvailable now m).2)) := by
  unfold rotateToNext
  dsimp only

/-- A successful rotation comes from `getNextAvailable` and moves the
active pointer to the returned account's index. -/
theorem rotateToNext_spec (now : Int) (m : AccountManager) (a : ManagedAccount)
    (h : (rotateToNext now m).1 = some a) :
    (getNextAvailable now m).1 = some a ∧
    (rotateToNext now m).2.activeIndex = (a.index : Int) := by
  rw [rotateToNext_eq] at h ⊢
  rcases hg : (getNextAvailable now m).1 with _ | b
  · rw [hg] at h
    simp at h
  · rw [hg] at h
    dsimp only at h ⊢
    cases h
    exact ⟨rfl, rfl⟩

/-- Rotation over a fully blocked pool yields nothing. -/
theorem rotateToNext_blocked (now : Int) (m : AccountManager)
    (hall : ∀ x ∈ m.accounts, isAvailableNow now x = false) :
    (rotateToNext now m).1 = none := by
  rw [rotateToNext_eq, getNextAvailable_blocked now m hall]

/-- Any rotation result satisfies the no-future-timer check. -/
theorem rotateToNext_all (now : Int) (m : AccountManager) :
    ((rotateToNext now m).1.all (noFutureTimers now)) = true := by
  rcases hr : (rotateToNext now m).1 with _ | a
  · rfl
  · obtain ⟨hg, -⟩ := rotateToNext_spec now m a hr
    obtain ⟨hrl, hcd, -⟩ := getNextAvailable_some now m a hg
    simp [Option.all_some, noFutureTimers, hrl, hcd]
/-- Characterization of `getCurrentOrNext` with its lets expanded. -/
theorem getCurrentOrNext_eq (now : Int) (m : AccountManager) :
    getCurrentOrNext now m =
      (if m.activeIndex < 0 ∨ (m.accounts.length : Int) ≤ m.activeIndex then
        rotateToNext now m
      else
        match m.accounts.get? m.activeIndex.toNat with
        | none => rotateToNext now m
        | some current =>
          if isRateLimited now (clearExpiredRateLimit now current) then
            rotateToNext now
              ⟨m.accounts.set m.activeIndex.toNat (clearExpiredRateLimit now current),
               m.cursor, m.activeIndex⟩
          else if (isAccountCoolingDown now (clearExpiredRateLimit now current)).1 then
            rotateToNext now
              ⟨m.accounts.set m.activeIndex.toNat
                 (isAccountCoolingDown now (clearExpiredRateLimit now current)).2,
               m.cursor, m.activeIndex⟩
          else
            (some { (isAccountCoolingDown now (clearExpiredRateLimit now current)).2 with
                      lastUsed := now },
             ⟨m.accounts.set m.activeIndex.toNat
                { (isAccountCoolingDown now (clearExpiredRateLimit now current)).2 with
                    lastUsed := now },
              m.cursor, m.activeIndex⟩)) := by
  unfold getCurrentOrNext
  dsimp only

/-- Availability after passing both lazy checks. -/
theorem avail_of_checks (now : Int) (a : ManagedAccount)
    (h1 : isRateLimited now (clearExpiredRateLimit now a) = false)
    (h2 : (isAccountCoolingDown now (clearExpiredRateLimit now a)).1 = false) :
    isAvailableNow now a = true := by
  rw [← isAvailableNow_clear]
  unfold isAvailableNow
  rw [h1]
  unfold isAccountCoolingDown at h2
  rcases hcd : (clearExpiredRateLimit now a).coolingDownUntil with _ | t
  · simp [hcd]
  · simp only [hcd] at h2 ⊢
    split_ifs at h2 with h3
    simp
    omega

/-- Every account handed out by `getCurrentOrNext` passes the
no-future-timer check. -/
theorem getCurrentOrNext_all (now : Int) (m : AccountManager) :
    ((getCurrentOrNext now m).1.all (noFutureTimers now)) = true := by
  rw [getCurrentOrNext_eq]
  split_ifs with hb
  · exact rotateToNext_all now m
  · rcases hcur : m.accounts.get? m.activeIndex.toNat with _ | current
    · exact rotateToNext_all now m
    · dsimp only
      split_ifs with h1 h2
      · exact rotateToNext_all now _
      · exact rotateToNext_all now _
      · rw [Bool.not_eq_true] at h1 h2
        obtain ⟨hcd, hrleq, -⟩ :=
          cooling_false now (clearExpiredRateLimit now current) h2
        have hrl := clear_not_limited now current h1
        simp [Option.all_some, noFutureTimers, hcd, hrleq ▸ hrl]

/-- With every account unavailable, `getCurrentOrNext` hands out
nothing. -/
theorem getCurrentOrNext_blocked (now : Int) (m : AccountManager)
    (hall : ∀ x ∈ m.accounts, isAvailableNow now x = false) :
    (getCurrentOrNext now m).1 = none := by
  rw [getCurrentOrNext_eq]
  split_ifs with hb
  · exact rotateToNext_blocked now m hall
  · rcases hcur : m.accounts.get? m.activeIndex.toNat with _ | current
    · exact rotateToNext_blocked now m hall
    · dsimp only
      have hmem : current ∈ m.accounts := List.get?_mem hcur
      split_ifs with h1 h2
      · refine rotateToNext_blocked now _ ?_
        intro x hx
        rcases List.mem_or_eq_of_mem_set hx with hx1 | hx2
        · exact hall x hx1
        · rw [hx2, isAvailableNow_clear]
          exact hall current hmem
      · refine rotateToNext_blocked now _ ?_
        intro x hx
        rcases List.mem_or_eq_of_mem_set hx with hx1 | hx2
        · exact hall x hx1
        · rw [hx2, cooling_true now _ h2, isAvailableNow_clear]
          exact hall current hmem
      · rw [Bool.not_eq_true] at h1 h2
        have hav := avail_of_checks now current h1 h2
        rw [hall current hmem] at hav
        cases hav
/-! ## C1: selection never returns an unavailable account -/

/-- C1: for every pool and call time, `getCurrentOrNext` never returns
an account whose `rateLimitResetTime` or `coolingDownUntil` lies in the
future relative to the call time; and it returns `null` when the pool is
empty or when every account is rate-limited or cooling down at call
time. -/
theorem getCurrentOrNext_safe (now : Int) (m : AccountManager) :
    ((getCurrentOrNext now m).1.all (noFutureTimers now) = true) ∧
    ((m.accounts = [] ∨ m.accounts.all (fun a => !(isAvailableNow now a)) = true) →
      (getCurrentOrNext now m).1 = none) := by
  refine ⟨getCurrentOrNext_all now m, fun hblocked => getCurrentOrNext_blocked now m ?_⟩
  intro x hx
  rcases hblocked with hemp | hall
  · rw [hemp] at hx
    cases hx
  · have h2 := List.all_eq_true.mp hall x hx
    simp at h2
    exact h2

/-- Tiny pool-account constructor for the concrete scenarios: index,
reset time, cooldown window; every other field neutral. -/
def mkAccount (i : Nat) (rl cd : Option Int) : ManagedAccount :=
  ⟨i, none, "tok", none, none, 0, 0, none, rl, cd, none⟩

/-- Concrete one-account pool with no outstanding timers. -/
def demoPoolOk : AccountManager :=
  ⟨[mkAccount 0 none none], 0, 0⟩

/-- Concrete two-account pool, both blocked at time 100: one
rate-limited until 500, one cooling down until 900. -/
def demoPoolBlocked : AccountManager :=
  ⟨[mkAccount 0 (some 500) none, mkAccount 1 none (some 900)], 0, 0⟩

/-- Witness for C1: the account selected from the healthy pool carries
no future timers, and the fully blocked pool yields `none`. -/
theorem getCurrentOrNext_safe_witness :
    ((getCurrentOrNext 50 demoPoolOk).1.all (noFutureTimers 50) = true) ∧
    ((getCurrentOrNext 100 demoPoolBlocked).1 = none) :=
  ⟨(getCurrentOrNext_safe 50 demoPoolOk).1,
   (getCurrentOrNext_safe 100 demoPoolBlocked).2 (Or.inr (by decide))⟩
/-! ## C9: minimum wait time -/

/-- A left fold by `min` lands on the seed or a list element. -/
theorem foldl_min_mem (xs : List Int) : ∀ x : Int,
    xs.foldl min x = x ∨ xs.foldl min x ∈ xs := by
  induction xs with
  | nil =>
    intro x
    exact .inl rfl
  | cons y ys ih =>
    intro x
    rcases ih (min x y) with h | h
    · rcases min_choice x y with hm | hm
      · exact .inl (by rw [List.foldl_cons, h, hm])
      · refine .inr ?_
        rw [List.foldl_cons, h, hm]
        exact List.mem_cons_self y ys
    · exact .inr (List.mem_cons_of_mem y h)

/-- A left fold by `min` is a lower bound of seed and elements. -/
theorem foldl_min_le (xs : List Int) : ∀ x : Int,
    xs.foldl min x ≤ x ∧ ∀ d ∈ xs, xs.foldl min x ≤ d := by
  induction xs with
  | nil =>
    intro x
    exact ⟨le_refl x, by intro d hd; cases hd⟩
  | cons y ys ih =>
    intro x
    obtain ⟨h1, h2⟩ := ih (min x y)
    refine ⟨le_trans h1 (min_le_left x y), ?_⟩
    intro d hd
    rcases List.mem_cons.mp hd with hd1 | hd2
    · rw [List.foldl_cons, hd1]
      exact le_trans h1 (min_le_right x y)
    · exact h2 d hd2

/-- `Math.min(...xs)` belongs to a non-empty argument list. -/
theorem jsMathMin_mem (xs : List Int) (h : xs ≠ []) : jsMathMin xs ∈ xs := by
  cases xs with
  | nil => cases h rfl
  | cons x ys =>
    show ys.foldl min x ∈ x :: ys
    rcases foldl_min_mem ys x with h1 | h1
    · rw [h1]
      exact List.mem_cons_self x ys
    · exact List.mem_cons_of_mem x h1

/-- `Math.min(...xs)` is a lower bound of its arguments. -/
theorem jsMathMin_le (xs : List Int) : ∀ d ∈ xs, jsMathMin xs ≤ d := by
  cases xs with
  | nil =>
    intro d hd
    cases hd
  | cons x ys =>
    intro d hd
    show ys.foldl min x ≤ d
    obtain ⟨h1, h2⟩ := foldl_min_le ys x
    rcases List.mem_cons.mp hd with hd1 | hd2
    · rw [hd1]
      exact le_trans h1 (le_refl x)
    · exact h2 d hd2

/-- Characterization of the value returned by `getMinWaitTime`. -/
theorem getMinWaitTime_fst (now : Int) (m : AccountManager) :
    (getMinWaitTime now m).1 =
      (if 0 < ((m.accounts.map (availStep now)).filter (fun p => p.2)).length then 0
       else if 0 < (waitTimesOf now ((m.accounts.map (availStep now)).map Prod.fst)).length
         then jsMathMin (waitTimesOf now ((m.accounts.map (availStep now)).map Prod.fst))
         else 0) := by
  unfold getMinWaitTime
  dsimp only
  split_ifs <;> rfl

/-- An account blocked at `now` still carries at least one timer after
the lazy clearing of the availability filter. -/
theorem availStep_blocked_timer (now : Int) (a : ManagedAccount)
    (h : isAvailableNow now a = false) :
    ((availStep now a).1.rateLimitResetTime).isSome = true ∨
    ((availStep now a).1.coolingDownUntil).isSome = true := by
  unfold availStep
  dsimp only
  split_ifs with h1
  · left
    unfold isRateLimited at h1
    rcases hrl : (clearExpiredRateLimit now a).rateLimitResetTime with _ | t
    · rw [hrl] at h1
      cases h1
    · rfl
  · rw [Bool.not_eq_true] at h1
    by_cases hc : (isAccountCoolingDown now (clearExpiredRateLimit now a)).1 = true
    · right
      rw [cooling_true now _ hc]
      unfold isAccountCoolingDown at hc
      rcases hcd : (clearExpiredRateLimit now a).coolingDownUntil with _ | t
      · rw [hcd] at hc
        cases hc
      · rfl
    · rw [Bool.not_eq_true] at hc
      rw [avail_of_checks now a h1 hc] at h
      cases h

/-- An empty wait-time list means no account carries any timer. -/
theorem waitTimesOf_nil (now : Int) : ∀ l : List ManagedAccount,
    waitTimesOf now l = [] →
      ∀ x ∈ l, x.rateLimitResetTime = none ∧ x.coolingDownUntil = none := by
  intro l
  induction l with
  | nil =>
    intro _ x hx
    cases hx
  | cons a rest ih =>
    intro h x hx
    unfold waitTimesOf at h
    rcases hrl : a.rateLimitResetTime with _ | t <;>
      rcases hcd : a.coolingDownUntil with _ | t2 <;>
        rw [hrl, hcd] at h <;> simp at h
    rcases List.mem_cons.mp hx with hx1 | hx2
    · rw [hx1]
      exact ⟨hrl, hcd⟩
    · exact ih h x hx2

/-- C9: `getMinWaitTime` returns 0 whenever at least one account is
available at call time; otherwise (non-empty pool, all accounts blocked)
it returns the minimum over all accounts of the outstanding
`rateLimitResetTime`/`coolingDownUntil` deltas from now: a member of the
delta list that bounds every delta from below. -/
theorem getMinWaitTime_spec (now : Int) (m : AccountManager) :
    ((m.accounts.any (fun a => isAvailableNow now a)) = true →
      (getMinWaitTime now m).1 = 0) ∧
    (m.accounts ≠ [] →
      (m.accounts.all (fun a => !(isAvailableNow now a))) = true →
      ((getMinWaitTime now m).1 ∈
          waitTimesOf now ((m.accounts.map (availStep now)).map Prod.fst) ∧
        ∀ d ∈ waitTimesOf now ((m.accounts.map (availStep now)).map Prod.fst),
          (getMinWaitTime now m).1 ≤ d)) := by
  constructor
  · intro hany
    obtain ⟨a, ha, hav⟩ := List.any_eq_true.mp hany
    rw [getMinWaitTime_fst]
    have hmem : availStep now a ∈ (m.accounts.map (availStep now)).filter (fun p => p.2) := by
      refine List.mem_filter.mpr ⟨List.mem_map_of_mem _ ha, ?_⟩
      rw [availStep_snd]
      exact hav
    rw [if_pos (List.length_pos.mpr (List.ne_nil_of_mem hmem))]
  · intro hne hall
    have hblocked : ∀ x ∈ m.accounts, isAvailableNow now x = false := by
      intro x hx
      simpa using List.all_eq_true.mp hall x hx
    have hf : ((m.accounts.map (availStep now)).filter (fun p => p.2)) = [] := by
      rw [List.filter_eq_nil_iff]
      intro p hp
      obtain ⟨b, hb, hbeq⟩ := List.mem_map.mp hp
      have h2 : p.2 = isAvailableNow now b := by
        rw [← hbeq]
        exact availStep_snd now b
      rw [h2, hblocked b hb]
      simp
    have hwne : waitTimesOf now ((m.accounts.map (availStep now)).map Prod.fst) ≠ [] := by
      intro hnil
      obtain ⟨a, ha⟩ := List.exists_mem_of_ne_nil m.accounts hne
      have hmem1 : (availStep now a).1 ∈
          (m.accounts.map (availStep now)).map Prod.fst :=
        List.mem_map_of_mem _ (List.mem_map_of_mem _ ha)
      obtain ⟨hrl, hcd⟩ := waitTimesOf_nil now _ hnil _ hmem1
      rcases availStep_blocked_timer now a (hblocked a ha) with h3 | h3
      · rw [hrl] at h3
        cases h3
      · rw [hcd] at h3
        cases h3
    rw [getMinWaitTime_fst, if_neg (by rw [hf]; simp),
      if_pos (List.length_pos.mpr hwne)]
    exact ⟨jsMathMin_mem _ hwne, jsMathMin_le _⟩

/-- Concrete pool with an available account beside a rate-limited one. -/
def demoPoolAvail : AccountManager :=
  ⟨[mkAccount 0 none none, mkAccount 1 (some 99999) none], 0, 0⟩

/-- Concrete pool with both accounts cooling down, for 10s and 30s. -/
def demoPoolCooling : AccountManager :=
  ⟨[mkAccount 0 none (some 10000), mkAccount 1 none (some 30000)], 0, 0⟩

/-- Witness for C9: an available account forces a zero wait; two
accounts cooling down for 10s and 30s give a wait greater than 0 and at
most 10000 ms. -/
theorem getMinWaitTime_spec_witness :
    (getMinWaitTime 5 demoPoolAvail).1 = 0 ∧
    0 < (getMinWaitTime 0 demoPoolCooling).1 ∧
    (getMinWaitTime 0 demoPoolCooling).1 ≤ 10000 := by
  refine ⟨(getMinWaitTime_spec 5 demoPoolAvail).1 (by decide), by decide, ?_⟩
  have h := (getMinWaitTime_spec 0 demoPoolCooling).2 (by decide) (by decide)
  exact h.2 10000 (by decide)
/-! ## C2: 429 handling -/

/-- In a well-indexed pool, the record found at a position carries that
position in its `index` field. -/
theorem wellIndexed_get (l : List ManagedAccount) (h : wellIndexed l = true)
    (i : Nat) (x : ManagedAccount) (hx : l.get? i = some x) : x.index = i := by
  unfold wellIndexed at h
  have hi : i < l.length := (List.get?_eq_some.mp hx).1
  have h2 := List.all_eq_true.mp h i (List.mem_range.mpr hi)
  rw [hx] at h2
  simpa using h2

/-- The record as updated by the 429 branch: reset time stamped by
`markRateLimited`, switch reason stamped by `markSwitched`. -/
def markedAccount (t : Int) (a : ManagedAccount) : ManagedAccount :=
  { a with rateLimitResetTime := some t, lastSwitchReason := some SwitchReason.rateLimit }

/-- C2 (amended): on a 429 with `retry-after: 30` at position `pos`, the
handling sets the account's `rateLimitResetTime` to `now + 30000`
(within `[now+29000, now+31000]`), and `markSwitched` points the active
pointer AT that account; the pointer moves off it only at the next
selection, which — when it returns an account — returns one with a
different index and repoints the active pointer to that one. -/
theorem handle429_spec (now : Int) (m : AccountManager) (pos : Nat)
    (a : ManagedAccount) (hwi : wellIndexed m.accounts = true)
    (ha : m.accounts.get? pos = some a) :
    (∃ t, ((handle429 now m pos (some "30")).accounts.get? pos).map
        ManagedAccount.rateLimitResetTime = some (some t) ∧
      now + 29000 ≤ t ∧ t ≤ now + 31000) ∧
    (handle429 now m pos (some "30")).activeIndex = (a.index : Int) ∧
    (∀ b m2, getCurrentOrNext now (handle429 now m pos (some "30")) = (some b, m2) →
      b.index ≠ a.index ∧ m2.activeIndex = (b.index : Int)) := by
  have hpos : pos < m.accounts.length := (List.get?_eq_some.mp ha).1
  have hms : rateLimitRetryAfterMs (some "30") = 30000 := by decide
  have haidx : a.index = pos := wellIndexed_get m.accounts hwi pos a ha
  have hstep1 : markRateLimited now m pos (rateLimitRetryAfterMs (some "30"))
      = ⟨m.accounts.set pos ({ a with rateLimitResetTime := some (now + 30000) }),
         m.cursor, m.activeIndex⟩ := by
    unfold markRateLimited
    rw [hms, ha]
    have hmax : max (0:Int) 30000 = 30000 := by decide
    rw [hmax]
  have hstep2 : handle429 now m pos (some "30")
      = ⟨m.accounts.set pos (markedAccount (now + 30000) a), m.cursor, (a.index : Int)⟩ := by
    unfold handle429
    rw [hstep1]
    unfold markSwitched
    have hget : (m.accounts.set pos ({ a with rateLimitResetTime := some (now + 30000) })).get? pos
        = some ({ a with rateLimitResetTime := some (now + 30000) }) :=
      List.get?_set_eq_of_lt _ hpos
    rw [hget]
    dsimp only
    rw [List.set_set]
    rfl
  refine ⟨?_, ?_, ?_⟩
  · refine ⟨now + 30000, ?_, by omega, by omega⟩
    rw [hstep2]
    have hget2 : (m.accounts.set pos (markedAccount (now + 30000) a)).get? pos
        = some (markedAccount (now + 30000) a) :=
      List.get?_set_eq_of_lt _ hpos
    rw [hget2]
    rfl
  · rw [hstep2]
  · intro b m2 hsel
    rw [hstep2] at hsel
    have hne30 : ¬(now + 30000 ≤ now) := by omega
    have hlt30 : now < now + 30000 := by omega
    have hclr : clearExpiredRateLimit now (markedAccount (now + 30000) a)
        = markedAccount (now + 30000) a := by
      unfold clearExpiredRateLimit markedAccount
      simp [hne30]
    have hlim : isRateLimited now (markedAccount (now + 30000) a) = true := by
      unfold isRateLimited markedAccount
      simp
    have hunav : isAvailableNow now (markedAccount (now + 30000) a) = false := by
      unfold isAvailableNow
      rw [hlim]
      rfl
    rw [getCurrentOrNext_eq] at hsel
    have hbnd : ¬((a.index : Int) < 0 ∨
        ((m.accounts.set pos (markedAccount (now + 30000) a)).length : Int) ≤ (a.index : Int)) := by
      rw [List.length_set]
      push_neg
      refine ⟨by positivity, ?_⟩
      rw [haidx]
      exact_mod_cast hpos
    rw [if_neg hbnd] at hsel
    have htoNat : ((a.index : Int)).toNat = pos := by
      rw [haidx]
      exact Int.toNat_natCast pos
    rw [htoNat] at hsel
    have hget2 : (m.accounts.set pos (markedAccount (now + 30000) a)).get? pos
        = some (markedAccount (now + 30000) a) :=
      List.get?_set_eq_of_lt _ hpos
    rw [hget2] at hsel
    try dsimp only at hsel
    rw [hclr] at hsel
    rw [if_pos hlim] at hsel
    try dsimp only at hsel
    rw [List.set_set] at hsel
    have hsel1 : (rotateToNext now
        ⟨m.accounts.set pos (markedAccount (now + 30000) a), m.cursor, (a.index : Int)⟩).1
        = some b := by
      rw [hsel]
    obtain ⟨hg, hrot2⟩ := rotateToNext_spec now _ b hsel1
    obtain ⟨-, -, p, c, hc, hcav, hbidx⟩ := getNextAvailable_some now _ b hg
    have hm2 : m2.activeIndex = (b.index : Int) := by
      have h2 := congrArg Prod.snd hsel
      dsimp only at h2
      rw [← h2]
      exact hrot2
    refine ⟨?_, hm2⟩
    by_cases hp : p = pos
    · subst hp
      rw [List.get?_set_eq_of_lt _ hpos] at hc
      cases hc
      rw [hunav] at hcav
      cases hcav
    · rw [List.get?_set_ne _ _ (fun h2 => hp h2.symm)] at hc
      have hcidx : c.index = p := wellIndexed_get m.accounts hwi p c hc
      rw [hbidx, hcidx, haidx]
      exact hp

/-- Concrete two-account pool for the C2 witness. -/
def demoPoolTwo : AccountManager :=
  ⟨[mkAccount 0 none none, mkAccount 1 none none], 0, 0⟩

/-- Witness for C2 (amended): handling a 429 with `retry-after: 30` on
account 0 of a healthy two-account pool stamps `rateLimitResetTime`
within the interval, points the active pointer at account 0, and the
next selection hands out account 1 and repoints the active pointer
there. -/
theorem handle429_spec_witness :
    ((∃ t, ((handle429 0 demoPoolTwo 0 (some "30")).accounts.get? 0).map
        ManagedAccount.rateLimitResetTime = some (some t) ∧
      0 + 29000 ≤ t ∧ t ≤ 0 + 31000) ∧
    (handle429 0 demoPoolTwo 0 (some "30")).activeIndex = ((mkAccount 0 none none).index : Int) ∧
    (∀ b m2, getCurrentOrNext 0 (handle429 0 demoPoolTwo 0 (some "30")) = (some b, m2) →
      b.index ≠ (mkAccount 0 none none).index ∧ m2.activeIndex = (b.index : Int))) ∧
    (getCurrentOrNext 0 (handle429 0 demoPoolTwo 0 (some "30"))).2.activeIndex = 1 :=
  ⟨handle429_spec 0 demoPoolTwo 0 (mkAccount 0 none none) (by decide) (by decide),
   by decide⟩

/-- Concrete single-account pool for the C2 counterexample. -/
def demoPoolSingle : AccountManager :=
  ⟨[mkAccount 0 none none], 0, 0⟩

/-- Counterexample for C2 as stated: in a single-account pool, after the
429 handling (`markRateLimited` + `markSwitched`) the active pointer
still references the rate-limited account — `markSwitched` points it AT
the account — and it still does so after the subsequent selection, which
returns nothing. -/
theorem handle429_pointer_cex :
    (handle429 0 demoPoolSingle 0 (some "30")).activeIndex = 0 ∧
    ((handle429 0 demoPoolSingle 0 (some "30")).accounts.get? 0).map
      ManagedAccount.index = some 0 ∧
    (getCurrentOrNext 0 (handle429 0 demoPoolSingle 0 (some "30"))).1 = none ∧
    (getCurrentOrNext 0 (handle429 0 demoPoolSingle 0 (some "30"))).2.activeIndex = 0 := by
  decide
/-! ## Lemmas about the dedup scan -/

/-- Membership in the indexed list. -/
theorem mem_withIdx : ∀ (l : List AccountMetadataV1) (n : Nat)
    (p : Nat × AccountMetadataV1),
    p ∈ withIdx n l ↔ ∃ j, p.1 = n + j ∧ l.get? j = some p.2 := by
  intro l
  induction l with
  | nil =>
    intro n p
    simp [withIdx]
  | cons x xs ih =>
    intro n p
    constructor
    · intro hp
      rcases List.mem_cons.mp hp with hp1 | hp2
      · refine ⟨0, ?_, ?_⟩
        · rw [hp1]
          simp
        · rw [hp1]
          rfl
      · obtain ⟨j, hj1, hj2⟩ := (ih (n + 1) p).mp hp2
        exact ⟨j + 1, by omega, hj2⟩
    · rintro ⟨j, hj1, hj2⟩
      cases j with
      | zero =>
        rcases p with ⟨p1, p2⟩
        simp only [List.get?] at hj2
        have hp2 : p2 = x := (Option.some.inj hj2).symm
        have hp1 : p1 = n := by omega
        rw [hp1, hp2]
        exact List.mem_cons_self _ _
      | succ j =>
        refine List.mem_cons_of_mem _ ((ih (n + 1) p).mpr ⟨j, by omega, hj2⟩)

/-- The second components of the indexed list restore the original. -/
theorem withIdx_map_snd : ∀ (l : List AccountMetadataV1) (n : Nat),
    (withIdx n l).map Prod.snd = l := by
  intro l
  induction l with
  | nil =>
    intro n
    rfl
  | cons x xs ih =>
    intro n
    simp [withIdx, ih]

/-- First components of the indexed list are bounded below. -/
theorem withIdx_fst_ge : ∀ (l : List AccountMetadataV1) (n : Nat)
    (p : Nat × AccountMetadataV1), p ∈ withIdx n l → n ≤ p.1 := by
  intro l n p hp
  obtain ⟨j, hj1, -⟩ := (mem_withIdx l n p).mp hp
  omega

/-- The indexed list has no duplicate entries. -/
theorem withIdx_nodup : ∀ (l : List AccountMetadataV1) (n : Nat),
    (withIdx n l).Nodup := by
  intro l
  induction l with
  | nil =>
    intro n
    exact List.nodup_nil
  | cons x xs ih =>
    intro n
    refine List.nodup_cons.mpr ⟨?_, ih (n + 1)⟩
    intro hmem
    have := withIdx_fst_ge xs (n + 1) (n, x) hmem
    omega

/-- Positions in the indexed list determine the entry. -/
theorem withIdx_inj (l : List AccountMetadataV1) (n : Nat)
    (p q : Nat × AccountMetadataV1) (hp : p ∈ withIdx n l)
    (hq : q ∈ withIdx n l) (h1 : p.1 = q.1) : p = q := by
  obtain ⟨j, hj1, hj2⟩ := (mem_withIdx l n p).mp hp
  obtain ⟨j', hj1', hj2'⟩ := (mem_withIdx l n q).mp hq
  have hjj : j = j' := by omega
  subst hjj
  rw [hj2'] at hj2
  rcases p with ⟨p1, p2⟩
  rcases q with ⟨q1, q2⟩
  simp only at hj2 h1 ⊢
  have := Option.some.inj hj2
  simp [h1, this]

/-- A list whose elements all fail a predicate filters to the single
element that passes it, provided exactly one does. -/
theorem filter_eq_single_of_unique {α : Type} [DecidableEq α]
    (l : List α) (Q : α → Bool) (x₀ : α) (hnd : l.Nodup) (hmem : x₀ ∈ l)
    (hQ : Q x₀ = true) (huniq : ∀ x ∈ l, Q x = true → x = x₀) :
    l.filter Q = [x₀] := by
  induction l with
  | nil => cases hmem
  | cons y ys ih =>
    rcases List.nodup_cons.mp hnd with ⟨hy, hnd'⟩
    rcases List.mem_cons.mp hmem with h1 | h2
    · subst h1
      rw [List.filter_cons_of_pos hQ]
      have hys : ys.filter Q = [] := by
        rw [List.filter_eq_nil_iff]
        intro b hb hQb
        exact hy ((huniq b (List.mem_cons_of_mem _ hb) hQb) ▸ hb)
      rw [hys]
    · have hyQ : Q y = false := by
        rcases hQy : Q y with _ | _
        · rfl
        · exact absurd (huniq y (List.mem_cons_self _ _) hQy ▸ h2) hy
      rw [List.filter_cons_of_neg (by rw [hyQ]; exact Bool.false_ne_true)]
      exact ih hnd' h2 (fun x hx hQx => huniq x (List.mem_cons_of_mem _ hx) hQx)

/-- Filtering commutes with projecting the record out of the indexed
pair. -/
theorem filter_map_snd (X : List (Nat × AccountMetadataV1))
    (q : AccountMetadataV1 → Bool) :
    (X.map Prod.snd).filter q = (X.filter (fun p => q p.2)).map Prod.snd := by
  induction X with
  | nil => rfl
  | cons x xs ih =>
    rcases hq : q x.2 with _ | _
    · rw [List.map_cons, List.filter_cons_of_neg (by rw [hq]; exact Bool.false_ne_true),
        List.filter_cons_of_neg (by simpa using hq), ih]
    · rw [List.map_cons, List.filter_cons_of_pos hq,
        List.filter_cons_of_pos (by simpa using hq), List.map_cons, ih]
/-- A failed map lookup means the key is absent. -/
theorem mapGet_none (m : List (String × Nat)) (k : String)
    (h : mapGet m k = none) : ∀ i, (k, i) ∉ m := by
  induction m with
  | nil =>
    intro i hi
    cases hi
  | cons p rest ih =>
    intro i hi
    rcases p with ⟨k', v⟩
    unfold mapGet at h
    split_ifs at h with hk
    rcases List.mem_cons.mp hi with h1 | h2
    · have h3 := congrArg Prod.fst h1
      simp only at h3
      exact hk h3.symm
    · exact ih h i h2

/-- A successful map lookup returns a present binding. -/
theorem mapGet_some (m : List (String × Nat)) (k : String) (i : Nat)
    (h : mapGet m k = some i) : (k, i) ∈ m := by
  induction m with
  | nil => cases h
  | cons p rest ih =>
    rcases p with ⟨k', v⟩
    unfold mapGet at h
    split_ifs at h with hk
    · have hv : v = i := Option.some.inj h
      rw [hk, hv]
      exact List.mem_cons_self _ _
    · exact List.mem_cons_of_mem _ (ih h)

/-- Inserting a binding puts it in the map. -/
theorem mapSet_self (m : List (String × Nat)) (k : String) (v : Nat) :
    (k, v) ∈ mapSet m k v := by
  induction m with
  | nil => exact List.mem_cons_self _ _
  | cons p rest ih =>
    unfold mapSet
    split_ifs with h
    · exact List.mem_cons_self _ _
    · exact List.mem_cons_of_mem _ ih

/-- A binding with a different key survives an insertion. -/
theorem mapSet_mem_of_ne (m : List (String × Nat)) (k : String) (v : Nat)
    (q : String × Nat) (hq : q ∈ m) (hne : q.1 ≠ k) : q ∈ mapSet m k v := by
  induction m with
  | nil => cases hq
  | cons p rest ih =>
    unfold mapSet
    rcases List.mem_cons.mp hq with h1 | h2
    · split_ifs with h
      · rw [h1] at hne
        exact absurd h hne
      · rw [h1]
        exact List.mem_cons_self _ _
    · split_ifs with h
      · exact List.mem_cons_of_mem _ h2
      · exact List.mem_cons_of_mem _ (ih h2)

/-- In a key-distinct map, any member of an updated map is the new
binding or an old binding with a different key. -/
theorem mem_mapSet (m : List (String × Nat)) (k : String) (v : Nat)
    (hp : m.Pairwise (fun p q => p.1 ≠ q.1)) (q : String × Nat)
    (hq : q ∈ mapSet m k v) : q = (k, v) ∨ (q ∈ m ∧ q.1 ≠ k) := by
  induction m with
  | nil =>
    rcases List.mem_cons.mp hq with h1 | h2
    · exact .inl h1
    · cases h2
  | cons p rest ih =>
    rcases List.pairwise_cons.mp hp with ⟨hhead, htail⟩
    unfold mapSet at hq
    split_ifs at hq with h
    · rcases List.mem_cons.mp hq with h1 | h2
      · exact .inl h1
      · refine .inr ⟨List.mem_cons_of_mem _ h2, ?_⟩
        rw [← h]
        exact (hhead q h2).symm
    · rcases List.mem_cons.mp hq with h1 | h2
      · refine .inr ⟨?_, ?_⟩
        · rw [h1]
          exact List.mem_cons_self _ _
        · rw [h1]
          exact h
      · rcases ih htail h2 with h3 | ⟨h3, h4⟩
        · exact .inl h3
        · exact .inr ⟨List.mem_cons_of_mem _ h3, h4⟩

/-- Keys of an updated map are the new key or old keys. -/
theorem mapSet_keys (m : List (String × Nat)) (k : String) (v : Nat)
    (q : String × Nat) (hq : q ∈ mapSet m k v) : q.1 = k ∨ q ∈ m := by
  induction m with
  | nil =>
    rcases List.mem_cons.mp hq with h1 | h2
    · exact .inl (by rw [h1])
    · cases h2
  | cons p rest ih =>
    unfold mapSet at hq
    split_ifs at hq with h
    · rcases List.mem_cons.mp hq with h1 | h2
      · exact .inl (by rw [h1])
      · exact .inr (List.mem_cons_of_mem _ h2)
    · rcases List.mem_cons.mp hq with h1 | h2
      · exact .inr (by rw [h1]; exact List.mem_cons_self _ _)
      · rcases ih h2 with h3 | h3
        · exact .inl h3
        · exact .inr (List.mem_cons_of_mem _ h3)

/-- Insertion preserves key-distinctness. -/
theorem pairwise_mapSet (m : List (String × Nat)) (k : String) (v : Nat)
    (hp : m.Pairwise (fun p q => p.1 ≠ q.1)) :
    (mapSet m k v).Pairwise (fun p q => p.1 ≠ q.1) := by
  induction m with
  | nil =>
    refine List.pairwise_cons.mpr ⟨?_, List.Pairwise.nil⟩
    intro q hq
    cases hq
  | cons p rest ih =>
    rcases List.pairwise_cons.mp hp with ⟨hhead, htail⟩
    unfold mapSet
    split_ifs with h
    · refine List.pairwise_cons.mpr ⟨?_, htail⟩
      intro q hq
      rw [← h]
      exact hhead q hq
    · refine List.pairwise_cons.mpr ⟨?_, ih htail⟩
      intro q hq
      rcases mapSet_keys rest k v q hq with h1 | h1
      · rw [h1]
        exact h
      · exact hhead q h1

/-- Two bindings with the same key in a key-distinct map coincide. -/
theorem pairwise_key_unique (m : List (String × Nat))
    (hp : m.Pairwise (fun p q => p.1 ≠ q.1)) (k : String) (i i' : Nat)
    (h1 : (k, i) ∈ m) (h2 : (k, i') ∈ m) : i = i' := by
  induction m with
  | nil => cases h1
  | cons p rest ih =>
    rcases List.pairwise_cons.mp hp with ⟨hhead, htail⟩
    rcases List.mem_cons.mp h1 with ha | ha <;> rcases List.mem_cons.mp h2 with hb | hb
    · have h3 := ha.trans hb.symm
      simpa using congrArg Prod.snd h3
    · exfalso
      exact hhead _ hb (by rw [← ha])
    · exfalso
      exact hhead _ ha (by rw [← hb])
    · exact ih htail ha hb
/-- One step of the dedup scan (the loop body of `deduplicateAccounts`
on the record at index `i`). -/
def scanStep (accounts : List AccountMetadataV1) (m : List (String × Nat))
    (i : Nat) (account : AccountMetadataV1) : List (String × Nat) :=
  match dedupKey account with
  | none => m
  | some key =>
    match mapGet m key with
    | none => mapSet m key i
    | some existingIndex =>
      match accounts.get? existingIndex with
      | none => mapSet m key i
      | some existing =>
        mapSet m key (if candidateWins existing account then i else existingIndex)

/-- The scan processes one indexed record per step. -/
theorem dedupScan_cons (accounts : List AccountMetadataV1)
    (s : List (Nat × AccountMetadataV1)) (m : List (String × Nat))
    (i : Nat) (account : AccountMetadataV1) :
    dedupScan accounts ((i, account) :: s) m =
      dedupScan accounts s (scanStep accounts m i account) := by
  rcases hk : dedupKey account with _ | key
  · simp only [dedupScan, scanStep, hk]
  · rcases hg : mapGet m key with _ | e
    · simp only [dedupScan, scanStep, hk, hg]
    · rcases hge : accounts.get? e with _ | ex
      · simp only [dedupScan, scanStep, hk, hg, hge]
      · simp only [dedupScan, scanStep, hk, hg, hge]

/-- Loop invariant of the dedup scan over the first `n` records:
bindings are in-range winners with correct keys, keys are distinct,
every keyed record seen so far has a binding, and each binding's record
is lexicographically maximal (by `lastUsed`, then `addedAt`) among the
records with its key seen so far. -/
structure ScanInv (l : List AccountMetadataV1) (n : Nat)
    (m : List (String × Nat)) : Prop where
  keys : ∀ k i, (k, i) ∈ m → i < n ∧ ∃ a, l.get? i = some a ∧ dedupKey a = some k
  distinct : m.Pairwise (fun p q => p.1 ≠ q.1)
  complete : ∀ j a k, j < n → l.get? j = some a → dedupKey a = some k →
    ∃ i, (k, i) ∈ m
  maximal : ∀ k i w, (k, i) ∈ m → l.get? i = some w →
    ∀ j b, j < n → l.get? j = some b → dedupKey b = some k →
      b.lastUsed ≤ w.lastUsed ∧ (b.lastUsed = w.lastUsed → b.addedAt ≤ w.addedAt)

/-- The scan invariant is preserved by one step. -/
theorem scanInv_step (l : List AccountMetadataV1) (n : Nat)
    (m : List (String × Nat)) (inv : ScanInv l n m) (a : AccountMetadataV1)
    (ha : l.get? n = some a) : ScanInv l (n + 1) (scanStep l m n a) := by
  rcases hk : dedupKey a with _ | key
  · have hs : scanStep l m n a = m := by
      simp only [scanStep, hk]
    rw [hs]
    refine ⟨?_, inv.distinct, ?_, ?_⟩
    · intro k i hm
      obtain ⟨h1, h2⟩ := inv.keys k i hm
      exact ⟨by omega, h2⟩
    · intro j b kb hj hb hkb
      rcases Nat.lt_or_ge j n with hj2 | hj2
      · exact inv.complete j b kb hj2 hb hkb
      · have hjn : j = n := by omega
        rw [hjn, ha] at hb
        cases hb
        rw [hk] at hkb
        cases hkb
    · intro k i w hm hw j b hj hb hkb
      rcases Nat.lt_or_ge j n with hj2 | hj2
      · exact inv.maximal k i w hm hw j b hj2 hb hkb
      · have hjn : j = n := by omega
        rw [hjn, ha] at hb
        cases hb
        rw [hk] at hkb
        cases hkb
  · rcases hg : mapGet m key with _ | e
    · have hfresh := mapGet_none m key hg
      have hs : scanStep l m n a = mapSet m key n := by
        simp only [scanStep, hk, hg]
      rw [hs]
      refine ⟨?_, pairwise_mapSet m key n inv.distinct, ?_, ?_⟩
      · intro k i hm
        rcases mem_mapSet m key n inv.distinct _ hm with h1 | ⟨h1, h2⟩
        · have hk1 : k = key := congrArg Prod.fst h1
          have hi1 : i = n := congrArg Prod.snd h1
          rw [hi1]
          refine ⟨by omega, a, ha, ?_⟩
          rw [hk, hk1]
        · obtain ⟨h3, h4⟩ := inv.keys k i h1
          exact ⟨by omega, h4⟩
      · intro j b kb hj hb hkb
        rcases Nat.lt_or_ge j n with hj2 | hj2
        · obtain ⟨i, hi⟩ := inv.complete j b kb hj2 hb hkb
          have hne : kb ≠ key := by
            intro hkk
            rw [hkk] at hi
            exact hfresh i hi
          exact ⟨i, mapSet_mem_of_ne m key n _ hi hne⟩
        · have hjn : j = n := by omega
          rw [hjn, ha] at hb
          cases hb
          rw [hk] at hkb
          have hkk : kb = key := (Option.some.inj hkb).symm
          rw [hkk]
          exact ⟨n, mapSet_self m key n⟩
      · intro k i w hm hw j b hj hb hkb
        rcases mem_mapSet m key n inv.distinct _ hm with h1 | ⟨h1, h2⟩
        · have hk1 : k = key := congrArg Prod.fst h1
          have hi1 : i = n := congrArg Prod.snd h1
          rw [hi1, ha] at hw
          have hwa : w = a := (Option.some.inj hw).symm
          subst hwa
          rcases Nat.lt_or_ge j n with hj2 | hj2
          · exfalso
            obtain ⟨i', hi'⟩ := inv.complete j b k hj2 hb hkb
            rw [hk1] at hi'
            exact hfresh i' hi'
          · have hjn : j = n := by omega
            rw [hjn, ha] at hb
            cases hb
            exact ⟨le_refl _, fun _ => le_refl _⟩
        · rcases Nat.lt_or_ge j n with hj2 | hj2
          · exact inv.maximal k i w h1 hw j b hj2 hb hkb
          · have hjn : j = n := by omega
            rw [hjn, ha] at hb
            cases hb
            rw [hk] at hkb
            have : k = key := (Option.some.inj hkb).symm
            exact absurd this h2
    · obtain ⟨he, ex, hex, hkex⟩ := inv.keys key e (mapGet_some m key e hg)
      have hs : scanStep l m n a = mapSet m key (if candidateWins ex a then n else e) := by
        simp only [scanStep, hk, hg, hex]
      rw [hs]
      refine ⟨?_, pairwise_mapSet m key _ inv.distinct, ?_, ?_⟩
      · intro k i hm
        rcases mem_mapSet m key _ inv.distinct _ hm with h1 | ⟨h1, h2⟩
        · have hk1 : k = key := congrArg Prod.fst h1
          have hi1 : i = (if candidateWins ex a then n else e) := congrArg Prod.snd h1
          rw [hi1]
          split_ifs with hwin
          · refine ⟨by omega, a, ha, ?_⟩
            rw [hk, hk1]
          · refine ⟨by omega, ex, hex, ?_⟩
            rw [hkex, hk1]
        · obtain ⟨h3, h4⟩ := inv.keys k i h1
          exact ⟨by omega, h4⟩
      · intro j b kb hj hb hkb
        rcases Nat.lt_or_ge j n with hj2 | hj2
        · obtain ⟨i, hi⟩ := inv.complete j b kb hj2 hb hkb
          by_cases hkk : kb = key
          · refine ⟨if candidateWins ex a then n else e, ?_⟩
            rw [hkk]
            exact mapSet_self m key _
          · exact ⟨i, mapSet_mem_of_ne m key _ _ hi hkk⟩
        · have hjn : j = n := by omega
          rw [hjn, ha] at hb
          cases hb
          rw [hk] at hkb
          have hkk : kb = key := (Option.some.inj hkb).symm
          rw [hkk]
          exact ⟨_, mapSet_self m key _⟩
      · intro k i w hm hw j b hj hb hkb
        rcases mem_mapSet m key _ inv.distinct _ hm with h1 | ⟨h1, h2⟩
        · have hk1 : k = key := congrArg Prod.fst h1
          have hi1 : i = (if candidateWins ex a then n else e) := congrArg Prod.snd h1
          subst hk1
          have hmax_ex : ∀ j2 b2, j2 < n → l.get? j2 = some b2 → dedupKey b2 = some k →
              b2.lastUsed ≤ ex.lastUsed ∧
              (b2.lastUsed = ex.lastUsed → b2.addedAt ≤ ex.addedAt) :=
            fun j2 b2 hj2 hb2 hkb2 =>
              inv.maximal k e ex (mapGet_some m k e hg) hex j2 b2 hj2 hb2 hkb2
          rcases hwin : candidateWins ex a with _ | _
          · rw [hi1, hwin, if_neg (by simp)] at hw
            rw [hex] at hw
            have hwex : w = ex := (Option.some.inj hw).symm
            subst hwex
            rcases Nat.lt_or_ge j n with hj2 | hj2
            · exact hmax_ex j b hj2 hb hkb
            · have hjn : j = n := by omega
              rw [hjn, ha] at hb
              cases hb
              unfold candidateWins at hwin
              split_ifs at hwin with hw1 hw2
              · exact ⟨by omega, fun h3 => by omega⟩
              · simp only [decide_eq_false_iff_not, not_le] at hwin
                exact ⟨by omega, fun h3 => by omega⟩
          · rw [hi1, hwin, if_pos rfl, ha] at hw
            have hwa : w = a := (Option.some.inj hw).symm
            subst hwa
            unfold candidateWins at hwin
            rcases Nat.lt_or_ge j n with hj2 | hj2
            · obtain ⟨hb1, hb2⟩ := hmax_ex j b hj2 hb hkb
              split_ifs at hwin with hw1 hw2
              · exact ⟨by omega, fun h3 => by omega⟩
              · simp only [decide_eq_true_eq] at hwin
                exact ⟨by omega, fun h3 => le_trans (hb2 (by omega)) hwin⟩
            · have hjn : j = n := by omega
              rw [hjn, ha] at hb
              cases hb
              exact ⟨le_refl _, fun _ => le_refl _⟩
        · rcases Nat.lt_or_ge j n with hj2 | hj2
          · exact inv.maximal k i w h1 hw j b hj2 hb hkb
          · have hjn : j = n := by omega
            rw [hjn, ha] at hb
            cases hb
            rw [hk] at hkb
            have : k = key := (Option.some.inj hkb).symm
            exact absurd this h2

/-- Running the scan over the remaining records extends the invariant
to the whole list. -/
theorem dedupScan_inv (l : List AccountMetadataV1) :
    ∀ cnt n m, l.length = n + cnt → ScanInv l n m →
      ScanInv l l.length (dedupScan l (withIdx n (l.drop n)) m) := by
  intro cnt
  induction cnt with
  | zero =>
    intro n m hlen inv
    have hn : n = l.length := by omega
    have hd : l.drop n = [] := by
      rw [hn]
      exact List.drop_length l
    rw [hd]
    simp only [withIdx, dedupScan]
    rw [← hn]
    exact inv
  | succ c ih =>
    intro n m hlen inv
    have hn : n < l.length := by omega
    have ha : l.get? n = some (l.get ⟨n, hn⟩) := List.get?_eq_get hn
    have hd : l.drop n = l.get ⟨n, hn⟩ :: l.drop (n + 1) :=
      List.drop_eq_get_cons hn
    rw [hd]
    simp only [withIdx]
    rw [dedupScan_cons]
    exact ih (n + 1) _ (by omega) (scanInv_step l n m inv _ ha)

/-- The completed scan satisfies the invariant for the full list. -/
theorem dedupScan_full_inv (l : List AccountMetadataV1) :
    ScanInv l l.length (dedupScan l (withIdx 0 l) []) := by
  have h0 : ScanInv l 0 [] := by
    refine ⟨?_, List.Pairwise.nil, ?_, ?_⟩
    · intro k i h
      cases h
    · intro j a k hj _ _
      exact absurd hj (Nat.not_lt_zero j)
    · intro k i w hm
      cases hm
  have h := dedupScan_inv l l.length 0 [] (by omega) h0
  rw [List.drop_zero] at h
  exact h

/-- Filtering the dedup result by a key bound in the final scan map
yields exactly the bound winner record. -/
theorem dedup_filter_key (l : List AccountMetadataV1) (k : String) (i : Nat)
    (w : AccountMetadataV1)
    (hm : (k, i) ∈ dedupScan l (withIdx 0 l) [])
    (hw : l.get? i = some w) :
    (deduplicateAccounts l).filter (fun b => dedupKey b = some k) = [w] := by
  have inv := dedupScan_full_inv l
  have hkw : dedupKey w = some k := by
    obtain ⟨-, a, ha, hka⟩ := inv.keys k i hm
    rw [hw] at ha
    rw [Option.some.inj ha]
    exact hka
  have hone : ((withIdx 0 l).filter
      (fun p => ((dedupScan l (withIdx 0 l) []).map Prod.snd).contains p.1)).filter
      (fun p => decide (dedupKey p.2 = some k)) = [(i, w)] := by
    apply filter_eq_single_of_unique _ _ (i, w)
      ((withIdx_nodup l 0).filter _)
    · refine List.mem_filter.mpr ⟨(mem_withIdx l 0 (i, w)).mpr ⟨i, by omega, hw⟩, ?_⟩
      exact List.elem_iff.mpr (List.mem_map.mpr ⟨(k, i), hm, rfl⟩)
    · simp [hkw]
    · intro x hx hQx
      obtain ⟨hx1, hx2⟩ := List.mem_filter.mp hx
      obtain ⟨j, hj0, hj⟩ := (mem_withIdx l 0 x).mp hx1
      have hkx : dedupKey x.2 = some k := by simpa using hQx
      obtain ⟨p, hpM, hpsnd⟩ := List.mem_map.mp (List.elem_iff.mp hx2)
      rcases p with ⟨k', i'⟩
      obtain ⟨hlt, b, hb, hkb⟩ := inv.keys k' i' hpM
      have hx1j : x.1 = j := by omega
      have hj' : l.get? i' = some x.2 := by
        simp only at hpsnd
        rw [hpsnd, hx1j]
        exact hj
      have hbx : b = x.2 := by
        rw [hb] at hj'
        exact Option.some.inj hj'
      have hk' : k' = k := by
        rw [hbx] at hkb
        rw [hkb] at hkx
        exact Option.some.inj hkx
      rw [hk'] at hpM
      have hii : i = i' := pairwise_key_unique _ inv.distinct k i i' hm hpM
      rcases x with ⟨x1, x2⟩
      simp only at hpsnd hj'
      have hx1i : x1 = i := by omega
      have hx2w : x2 = w := by
        rw [← hii, hw] at hj'
        exact (Option.some.inj hj').symm
      rw [hx1i, hx2w]
  have h2 : (deduplicateAccounts l).filter (fun b => decide (dedupKey b = some k)) =
      (((withIdx 0 l).filter
        (fun p => ((dedupScan l (withIdx 0 l) []).map Prod.snd).contains p.1)).filter
        (fun p => decide (dedupKey p.2 = some k))).map Prod.snd :=
    filter_map_snd _ _
  rw [h2, hone]
  rfl

/-- C6: deduplicateAccounts collapses records sharing a dedup key
(accountId, falling back to refreshToken) so that exactly one record
per key remains — the one with the greater lastUsed, ties broken by
the greater addedAt. -/
theorem dedup_collapses (l : List AccountMetadataV1) (k : String)
    (hex : ∃ a ∈ l, dedupKey a = some k) :
    ∃ w ∈ l, dedupKey w = some k ∧
      (deduplicateAccounts l).filter (fun b => dedupKey b = some k) = [w] ∧
      ∀ b ∈ l, dedupKey b = some k →
        b.lastUsed ≤ w.lastUsed ∧
        (b.lastUsed = w.lastUsed → b.addedAt ≤ w.addedAt) := by
  have inv := dedupScan_full_inv l
  obtain ⟨a, ha, hka⟩ := hex
  obtain ⟨j, hj⟩ := List.mem_iff_get?.mp ha
  have hjlt : j < l.length := by
    rcases List.get?_eq_some.mp hj with ⟨h, -⟩
    exact h
  obtain ⟨i, hi⟩ := inv.complete j a k hjlt hj hka
  obtain ⟨hilt, w, hwget, hkw⟩ := inv.keys k i hi
  refine ⟨w, List.get?_mem hwget, hkw, dedup_filter_key l k i w hi hwget, ?_⟩
  intro b hb hkb
  obtain ⟨j', hj'⟩ := List.mem_iff_get?.mp hb
  have hj'lt : j' < l.length := by
    rcases List.get?_eq_some.mp hj' with ⟨h, -⟩
    exact h
  exact inv.maximal k i w hi hwget j' b hj'lt hj' hkb

/-- A duplicated identity with the older timestamp. -/
def metaA1 : AccountMetadataV1 :=
  ⟨some "acctA", "tokenA", 0, 1000, none, none, none, none⟩

/-- The same identity with the newer timestamp. -/
def metaA2 : AccountMetadataV1 :=
  ⟨some "acctA", "tokenA", 0, 2000, none, none, none, none⟩

/-- C6 witness: the spec's scenario — two records for identity "acctA"
with lastUsed 1000 and 2000 collapse to the one with lastUsed 2000. -/
theorem dedup_collapses_witness :
    deduplicateAccounts [metaA1, metaA2] = [metaA2] ∧
    ∃ w ∈ [metaA1, metaA2], dedupKey w = some "acctA" ∧
      (deduplicateAccounts [metaA1, metaA2]).filter
        (fun b => dedupKey b = some "acctA") = [w] ∧
      ∀ b ∈ [metaA1, metaA2], dedupKey b = some "acctA" →
        b.lastUsed ≤ w.lastUsed ∧
        (b.lastUsed = w.lastUsed → b.addedAt ≤ w.addedAt) :=
  ⟨by decide, dedup_collapses [metaA1, metaA2] "acctA" ⟨metaA1, by decide, by decide⟩⟩

/-- Every entry surviving the dedup filter carries a binding of the
final scan map at its own index. -/
theorem dedup_binding (l : List AccountMetadataV1)
    (p : Nat × AccountMetadataV1)
    (hp : p ∈ (withIdx 0 l).filter
      (fun p => ((dedupScan l (withIdx 0 l) []).map Prod.snd).contains p.1)) :
    ∃ k, (k, p.1) ∈ dedupScan l (withIdx 0 l) [] ∧
      l.get? p.1 = some p.2 ∧ dedupKey p.2 = some k := by
  have inv := dedupScan_full_inv l
  obtain ⟨hp1, hp2⟩ := List.mem_filter.mp hp
  obtain ⟨j, hj0, hj⟩ := (mem_withIdx l 0 p).mp hp1
  have hj1 : l.get? p.1 = some p.2 := by
    have : p.1 = j := by omega
    rw [this]
    exact hj
  obtain ⟨q, hqM, hqsnd⟩ := List.mem_map.mp (List.elem_iff.mp hp2)
  rcases q with ⟨k', i'⟩
  simp only at hqsnd
  obtain ⟨hlt, b, hb, hkb⟩ := inv.keys k' i' hqM
  rw [hqsnd] at hqM hb
  rw [hj1] at hb
  have hbp : b = p.2 := (Option.some.inj hb).symm
  rw [hbp] at hkb
  exact ⟨k', hqM, hj1, hkb⟩

/-- The indexed list is strictly increasing in its first components. -/
theorem withIdx_pairwise_lt : ∀ (l : List AccountMetadataV1) (n : Nat),
    (withIdx n l).Pairwise (fun p q => p.1 < q.1) := by
  intro l
  induction l with
  | nil =>
    intro n
    exact List.Pairwise.nil
  | cons x xs ih =>
    intro n
    refine List.pairwise_cons.mpr ⟨?_, ih (n + 1)⟩
    intro q hq
    have := withIdx_fst_ge xs (n + 1) q hq
    omega

/-- Every record in the dedup output carries a dedup key. -/
theorem dedup_mem_keyed (l : List AccountMetadataV1) :
    ∀ b ∈ deduplicateAccounts l, ∃ k, dedupKey b = some k := by
  have hdd : deduplicateAccounts l =
      ((withIdx 0 l).filter
        (fun p => ((dedupScan l (withIdx 0 l) []).map Prod.snd).contains p.1)).map
        Prod.snd := rfl
  rw [hdd]
  intro b hb
  obtain ⟨p, hp, hsnd⟩ := List.mem_map.mp hb
  obtain ⟨k, -, -, hk⟩ := dedup_binding l p hp
  rw [hsnd] at hk
  exact ⟨k, hk⟩

/-- Records in the dedup output have pairwise distinct dedup keys. -/
theorem dedup_keys_pairwise (l : List AccountMetadataV1) :
    (deduplicateAccounts l).Pairwise (fun a b => dedupKey a ≠ dedupKey b) := by
  have inv := dedupScan_full_inv l
  have hdd : deduplicateAccounts l =
      ((withIdx 0 l).filter
        (fun p => ((dedupScan l (withIdx 0 l) []).map Prod.snd).contains p.1)).map
        Prod.snd := rfl
  rw [hdd, List.pairwise_map]
  have hbase := (withIdx_pairwise_lt l 0).filter
    (fun p => ((dedupScan l (withIdx 0 l) []).map Prod.snd).contains p.1)
  refine List.Pairwise.imp_of_mem ?_ hbase
  intro p q hp hq hlt heq
  obtain ⟨kp, hkpM, -, hkp⟩ := dedup_binding l p hp
  obtain ⟨kq, hkqM, -, hkq⟩ := dedup_binding l q hq
  rw [hkp, hkq] at heq
  have hk : kp = kq := Option.some.inj heq
  rw [hk] at hkpM
  have := pairwise_key_unique _ inv.distinct kq p.1 q.1 hkpM hkqM
  omega

/-- On a list whose records are all keyed with pairwise distinct keys,
the dedup pass is the identity. -/
theorem dedup_of_clean (l : List AccountMetadataV1)
    (h1 : ∀ b ∈ l, ∃ k, dedupKey b = some k)
    (h2 : l.Pairwise (fun a b => dedupKey a ≠ dedupKey b)) :
    deduplicateAccounts l = l := by
  have inv := dedupScan_full_inv l
  have hall : ∀ j b, l.get? j = some b →
      ((dedupScan l (withIdx 0 l) []).map Prod.snd).contains j = true := by
    intro j b hjb
    obtain ⟨k, hk⟩ := h1 b (List.get?_mem hjb)
    have hjlt : j < l.length := by
      rcases List.get?_eq_some.mp hjb with ⟨h, -⟩
      exact h
    obtain ⟨i, hi⟩ := inv.complete j b k hjlt hjb hk
    obtain ⟨hilt, w, hwget, hkw⟩ := inv.keys k i hi
    have hij : i = j := by
      by_contra hne
      have hpg := List.pairwise_iff_get.mp h2
      have hwi : w = l.get ⟨i, hilt⟩ := by
        have := List.get?_eq_get hilt (l := l)
        rw [this] at hwget
        exact (Option.some.inj hwget).symm
      have hbj : b = l.get ⟨j, hjlt⟩ := by
        have := List.get?_eq_get hjlt (l := l)
        rw [this] at hjb
        exact (Option.some.inj hjb).symm
      rcases Nat.lt_or_ge i j with hij2 | hij2
      · have := hpg ⟨i, hilt⟩ ⟨j, hjlt⟩ hij2
        rw [← hwi, ← hbj, hkw, hk] at this
        exact this rfl
      · have hji : j < i := by omega
        have := hpg ⟨j, hjlt⟩ ⟨i, hilt⟩ hji
        rw [← hwi, ← hbj, hkw, hk] at this
        exact this rfl
    rw [hij] at hi
    exact List.elem_iff.mpr (List.mem_map.mpr ⟨(k, j), hi, rfl⟩)
  have hfilter : (withIdx 0 l).filter
      (fun p => ((dedupScan l (withIdx 0 l) []).map Prod.snd).contains p.1) =
      withIdx 0 l := by
    rw [List.filter_eq_self]
    intro p hp
    obtain ⟨j, hj0, hj⟩ := (mem_withIdx l 0 p).mp hp
    have hpj : p.1 = j := by omega
    rw [hpj]
    exact hall j p.2 hj
  have hdd : deduplicateAccounts l =
      ((withIdx 0 l).filter
        (fun p => ((dedupScan l (withIdx 0 l) []).map Prod.snd).contains p.1)).map
        Prod.snd := rfl
  rw [hdd, hfilter]
  exact withIdx_map_snd l 0

/-- C8: deduplicateAccounts is idempotent — deduplicating an already
deduplicated list of account records returns it unchanged. -/
theorem dedup_idempotent (l : List AccountMetadataV1) :
    deduplicateAccounts (deduplicateAccounts l) = deduplicateAccounts l :=
  dedup_of_clean _ (dedup_mem_keyed l) (dedup_keys_pairwise l)

/-- A successful findIdx? returns the offset position of the first
match. -/
theorem findIdx?_some_spec {α : Type} (p : α → Bool) :
    ∀ (l : List α) (i m : Nat), List.findIdx? p l i = some m →
      ∃ j b, m = i + j ∧ l.get? j = some b ∧ p b = true ∧
        ∀ j' c, j' < j → l.get? j' = some c → p c = false := by
  intro l
  induction l with
  | nil =>
    intro i m h
    rw [List.findIdx?_nil] at h
    cases h
  | cons a as ih =>
    intro i m h
    rw [List.findIdx?_cons] at h
    split_ifs at h with hp
    · refine ⟨0, a, by have := Option.some.inj h; omega, rfl, hp, ?_⟩
      intro j' c hj'
      omega
    · obtain ⟨j, b, hm, hg, hpb, hmin⟩ := ih (i + 1) m h
      refine ⟨j + 1, b, by omega, hg, hpb, ?_⟩
      intro j' c hj' hgc
      cases j' with
      | zero =>
        have hca : c = a := (Option.some.inj hgc).symm
        rw [hca]
        exact Bool.not_eq_true _ |>.mp hp
      | succ j'' =>
        exact hmin j'' c (by omega) hgc

/-- A failed findIdx? means no element matches. -/
theorem findIdx?_none_spec {α : Type} (p : α → Bool) :
    ∀ (l : List α) (i : Nat), List.findIdx? p l i = none →
      ∀ b ∈ l, p b = false := by
  intro l
  induction l with
  | nil =>
    intro i _ b hb
    cases hb
  | cons a as ih =>
    intro i h b hb
    rw [List.findIdx?_cons] at h
    split_ifs at h with hp
    rcases List.mem_cons.mp hb with h1 | h2
    · rw [h1]
      exact Bool.not_eq_true _ |>.mp hp
    · exact ih (i + 1) h b h2

theorem normalize_eq_nil (raw : RawStorageV1) (hv : raw.version = 1)
    (hdnil : deduplicateAccounts raw.accounts = []) :
    normalizeAccountStorage raw = some ⟨deduplicateAccounts raw.accounts, 0⟩ := by
  unfold normalizeAccountStorage
  rw [if_neg (fun h => h hv)]
  simp only [hdnil, List.length_nil, eq_self_iff_true, ite_true]

theorem normalize_eq_found (raw : RawStorageV1) (hv : raw.version = 1)
    (hdnil : deduplicateAccounts raw.accounts ≠ []) (key : String) (m : Nat)
    (hkey : extractActiveKey raw.accounts
      (clampIndex (match raw.activeIndexRaw with | some n => n | none => 0)
        raw.accounts.length) = some key)
    (hfind : (deduplicateAccounts raw.accounts).findIdx?
      (fun a => jsKey a = key) = some m) :
    normalizeAccountStorage raw =
      some ⟨deduplicateAccounts raw.accounts, (m : Int)⟩ := by
  unfold normalizeAccountStorage
  rw [if_neg (fun h => h hv)]
  have hlen : ((deduplicateAccounts raw.accounts).length = 0) ↔ False := by
    simp [List.length_eq_zero, hdnil]
  simp only [hkey, hfind, hlen, ite_false]

theorem normalize_eq_lost (raw : RawStorageV1) (hv : raw.version = 1)
    (hdnil : deduplicateAccounts raw.accounts ≠ []) (key : String)
    (hkey : extractActiveKey raw.accounts
      (clampIndex (match raw.activeIndexRaw with | some n => n | none => 0)
        raw.accounts.length) = some key)
    (hfind : (deduplicateAccounts raw.accounts).findIdx?
      (fun a => jsKey a = key) = none) :
    normalizeAccountStorage raw =
      some ⟨deduplicateAccounts raw.accounts,
        clampIndex
          (clampIndex (match raw.activeIndexRaw with | some n => n | none => 0)
            raw.accounts.length)
          (deduplicateAccounts raw.accounts).length⟩ := by
  unfold normalizeAccountStorage
  rw [if_neg (fun h => h hv)]
  have hlen : ((deduplicateAccounts raw.accounts).length = 0) ↔ False := by
    simp [List.length_eq_zero, hdnil]
  simp only [hkey, hfind, hlen, ite_false]

theorem normalize_eq_nokey (raw : RawStorageV1) (hv : raw.version = 1)
    (hdnil : deduplicateAccounts raw.accounts ≠ [])
    (hkey : extractActiveKey raw.accounts
      (clampIndex (match raw.activeIndexRaw with | some n => n | none => 0)
        raw.accounts.length) = none) :
    normalizeAccountStorage raw =
      some ⟨deduplicateAccounts raw.accounts,
        clampIndex
          (clampIndex (match raw.activeIndexRaw with | some n => n | none => 0)
            raw.accounts.length)
          (deduplicateAccounts raw.accounts).length⟩ := by
  unfold normalizeAccountStorage
  rw [if_neg (fun h => h hv)]
  have hlen : ((deduplicateAccounts raw.accounts).length = 0) ↔ False := by
    simp [List.length_eq_zero, hdnil]
  simp only [hkey, hlen, ite_false]

/-- C7: normalizeAccountStorage remaps activeIndex across the dedup
pass by account identity, not position: the key of the record at the
clamped pre-dedup active index is captured, and the new activeIndex is
that key's first position in the deduplicated list; if no deduplicated
record carries the key (or none was captured), the original clamped
index is re-clamped into the deduplicated bounds. -/
theorem normalize_remaps (raw : RawStorageV1) (hv : raw.version = 1)
    (rai : Int)
    (hrai : rai = clampIndex (raw.activeIndexRaw.getD 0) raw.accounts.length) :
    ∃ out, normalizeAccountStorage raw = some out ∧
      out.accounts = deduplicateAccounts raw.accounts ∧
      ((out.accounts = [] ∧ out.activeIndex = 0) ∨
       (∃ (key : String) (m : Nat) (b : AccountMetadataV1), extractActiveKey raw.accounts rai = some key ∧
          out.activeIndex = (m : Int) ∧ out.accounts.get? m = some b ∧
          jsKey b = key ∧
          ∀ j c, j < m → out.accounts.get? j = some c → jsKey c ≠ key) ∨
       ((∀ key, extractActiveKey raw.accounts rai = some key →
           ∀ b ∈ out.accounts, jsKey b ≠ key) ∧
        out.activeIndex = clampIndex rai out.accounts.length)) := by
  have hgd : (match raw.activeIndexRaw with | some n => n | none => 0) =
      raw.activeIndexRaw.getD 0 := by
    cases raw.activeIndexRaw <;> rfl
  have hrai' : rai = clampIndex
      (match raw.activeIndexRaw with | some n => n | none => 0)
      raw.accounts.length := by
    rw [hgd]
    exact hrai
  by_cases hdnil : deduplicateAccounts raw.accounts = []
  · exact ⟨⟨deduplicateAccounts raw.accounts, 0⟩, normalize_eq_nil raw hv hdnil,
      rfl, Or.inl ⟨hdnil, rfl⟩⟩
  · rcases hkey : extractActiveKey raw.accounts
        (clampIndex (match raw.activeIndexRaw with | some n => n | none => 0)
          raw.accounts.length) with _ | key
    · refine ⟨_, normalize_eq_nokey raw hv hdnil hkey, rfl,
        Or.inr (Or.inr ⟨?_, ?_⟩)⟩
      · intro key' hk'
        rw [hrai', hkey] at hk'
        cases hk'
      · rw [hrai']
    · rcases hfind : (deduplicateAccounts raw.accounts).findIdx?
          (fun a => jsKey a = key) with _ | m
      · refine ⟨_, normalize_eq_lost raw hv hdnil key hkey hfind, rfl,
          Or.inr (Or.inr ⟨?_, ?_⟩)⟩
        · intro key' hk' b hb
          rw [hrai', hkey] at hk'
          have hkk : key' = key := (Option.some.inj hk').symm
          have hpb := findIdx?_none_spec _ _ _ hfind b hb
          rw [hkk]
          simpa using hpb
        · rw [hrai']
      · refine ⟨_, normalize_eq_found raw hv hdnil key m hkey hfind, rfl,
          Or.inr (Or.inl ?_)⟩
        obtain ⟨j, b, hm, hg, hpb, hmin⟩ :=
          findIdx?_some_spec _ (deduplicateAccounts raw.accounts) 0 m hfind
        have hjm : j = m := by omega
        refine ⟨key, m, b, ?_, rfl, ?_, ?_, ?_⟩
        · rw [hrai']
          exact hkey
        · rw [← hjm]
          exact hg
        · simpa using hpb
        · intro j' c hj' hgc
          have := hmin j' c (by omega) hgc
          simpa using this

/-- A third record with a distinct identity. -/
def metaB : AccountMetadataV1 :=
  ⟨some "acctB", "tokenB", 0, 500, none, none, none, none⟩

/-- A raw store with a duplicated identity at positions 0 and 1 and the
active index pointing at position 1. -/
def demoRaw : RawStorageV1 :=
  ⟨1, [metaA1, metaA2, metaB], some 1⟩

/-- C7 witness: with the duplicate "acctA" records at positions 0 and 1
and activeIndex 1, normalization keeps [metaA2, metaB] and remaps the
active index to 0, the surviving position of the "acctA" identity. -/
theorem normalize_remaps_witness :
    normalizeAccountStorage demoRaw = some ⟨[metaA2, metaB], 0⟩ ∧
    demoRaw.version = 1 ∧
    (1 : Int) = clampIndex (demoRaw.activeIndexRaw.getD 0)
      demoRaw.accounts.length ∧
    ∃ out, normalizeAccountStorage demoRaw = some out ∧
      out.accounts = deduplicateAccounts demoRaw.accounts ∧
      ((out.accounts = [] ∧ out.activeIndex = 0) ∨
       (∃ (key : String) (m : Nat) (b : AccountMetadataV1),
          extractActiveKey demoRaw.accounts 1 = some key ∧
          out.activeIndex = (m : Int) ∧ out.accounts.get? m = some b ∧
          jsKey b = key ∧
          ∀ j c, j < m → out.accounts.get? j = some c → jsKey c ≠ key) ∨
       ((∀ key, extractActiveKey demoRaw.accounts 1 = some key →
           ∀ b ∈ out.accounts, jsKey b ≠ key) ∧
        out.activeIndex = clampIndex 1 out.accounts.length)) :=
  ⟨by decide, rfl, by decide, normalize_remaps demoRaw rfl 1 (by decide)⟩
